import Mathlib

/-!
# Verification of the `exar` experiment-archive core

A shallow embedding of the identity-resolution / versioning engine of the
`exar` crate (`src/exar/src/{variable,experiment,run}.rs` and
`src/exar/src/database/postgres.rs`), together with proofs settling the
frozen claims about it.

Modelling conventions:

* The PostgreSQL store is modelled as lists of typed rows, one list per
  table of `PostgresClient::init_schema`.  Columns that the code stores as
  JSON text via `serde_json` (`DataType`, `VariableType`) are kept as their
  typed values, since the serde round-trip is injective and total; the
  `researchers` column is kept as the raw `;`-joined `String` exactly as the
  code stores it, because that encoding is lossy and the loss is observable.
* `gen_unique_id` ("a unique-id generator producing fixed-length opaque
  tokens") is modelled as a counter producing `Nat` ids; `Utc::now()` as a
  `Nat` clock carried in the system state.
* `f64` together with its `Display`/`FromStr` pair is kept abstract as a
  `FloatModel`; the Rust standard library guarantees that `Display` prints
  the shortest string that parses back to the same value, which appears as
  the `FloatRoundTrip` hypothesis where it is needed.
* Rust `panic!`/`expect` on caller misuse is modelled as `Option.none` /
  an `Except.error` result.
-/

namespace Exar

/-- `VariableType` from `variable.rs`: is a variable an input or output
variable? -/
inductive VariableType where
  | input
  | output
deriving DecidableEq, Repr

/-- `DataType` from `variable.rs`: the data type of a variable. -/
inductive DataType where
  /-- A numeric variable with a given unit -/
  | unit (u : String)
  /-- A generic numeric variable -/
  | number
  /-- A label -/
  | label
  /-- A generic textual variable -/
  | text
  /-- A boolean variable -/
  | bool
deriving DecidableEq, Repr

/-- `GenericValue` from `variable.rs`, parametric in the carrier `F` of the
Rust `f64` payload. -/
inductive GenericValue (F : Type) where
  | numeric (x : F)
  | str (s : String)
  | bool (b : Bool)
deriving DecidableEq, Repr

/-- Abstraction of Rust's `f64` together with its `Display` (`toStr`) and
`FromStr` (`ofStr`) implementations. -/
structure FloatModel where
  F : Type
  deq : DecidableEq F
  toStr : F → String
  ofStr : String → Option F

instance (fm : FloatModel) : DecidableEq fm.F := fm.deq

/-- Rust guarantees that `f64::to_string` produces a string that parses back
to the identical value; stated as a property of a `FloatModel`. -/
def FloatRoundTrip (fm : FloatModel) : Prop :=
  ∀ x : fm.F, fm.ofStr (fm.toStr x) = some x

/-- A `FloatModel` instance used to evaluate witnesses on concrete data. -/
def stringFM : FloatModel where
  F := String
  deq := inferInstance
  toStr := id
  ofStr := some

/-- `bool::from_str` in Rust accepts exactly `"true"` and `"false"`. -/
def parseBool (s : String) : Option Bool :=
  if s = "true" then some true else if s = "false" then some false else none

/-- `Display for bool` in Rust. -/
def boolToString (b : Bool) : String :=
  if b then "true" else "false"

/-- `Variable` from `variable.rs`: description of a variable in an
experiment. -/
structure Variable where
  name : String
  description : String
  dataType : DataType
deriving DecidableEq, Repr

/-- `DataType::parse_str_as_generic_value` from `variable.rs`: parse the
given string as a `GenericValue` matching this `DataType`.  `anyhow`
failure is modelled as `none`. -/
def DataType.parseStrAsGenericValue (fm : FloatModel) :
    DataType → String → Option (GenericValue fm.F)
  | .unit _, value => (fm.ofStr value).map .numeric
  | .number, value => (fm.ofStr value).map .numeric
  | .label, value => some (.str value)
  | .text, value => some (.str value)
  | .bool, value => (parseBool value).map .bool

/-- `impl Display for GenericValue` from `variable.rs`. -/
def GenericValue.display (fm : FloatModel) : GenericValue fm.F → String
  | .numeric x => fm.toStr x
  | .str s => s
  | .bool b => boolToString b

/-- `Variable::accepts` from `variable.rs`. -/
def Variable.accepts (fm : FloatModel) (v : Variable) :
    GenericValue fm.F → Bool :=
  fun generic_value =>
    match v.dataType with
    | .unit _ | .number =>
      match generic_value with
      | .numeric _ => true
      | _ => false
    | .label | .text =>
      match generic_value with
      | .str _ => true
      | _ => false
    | .bool =>
      match generic_value with
      | .bool _ => true
      | _ => false

/-- `VariableValue` from `variable.rs`: specific value of a given
variable.  The Rust field `variable` is called `var` here because
`variable` is a Lean keyword. -/
structure VariableValue (fm : FloatModel) where
  var : Variable
  value : GenericValue fm.F

instance (fm : FloatModel) : DecidableEq (VariableValue fm) :=
  fun a b =>
    decidable_of_iff (a.var = b.var ∧ a.value = b.value) (by
      cases a; cases b; simp)

/-- `VariableValue::from_variable` from `variable.rs`, the only constructor
of `VariableValue`; the panic on a value whose type does not match the
variable's `data_type` is modelled as `none`. -/
def VariableValue.fromVariable (fm : FloatModel) (v : Variable)
    (value : GenericValue fm.F) : Option (VariableValue fm) :=
  if v.accepts fm value then some ⟨v, value⟩ else none

/-- Boolean set equality of two lists; the model of Rust `HashSet` equality.
`HashSet`s are modelled as lists (list order standing for the unspecified
iteration order), and every equality test the code performs on them is a
set comparison. -/
def eqSet {α : Type} [DecidableEq α] (l₁ l₂ : List α) : Bool :=
  l₁.all (· ∈ l₂) && l₂.all (· ∈ l₁)

/-- Char-level model of Rust's `str::split(';')` as used when reading the
`researchers` column back (always yields at least one piece; `""` yields
`[""]`). -/
def splitSemicolon (s : String) : List String :=
  go s.data []
where
  go : List Char → List Char → List String
    | [], acc => [String.mk acc.reverse]
    | x :: xs, acc =>
      if x = ';' then String.mk acc.reverse :: go xs [] else go xs (x :: acc)

/-- Model of `itertools`' `join(";")` as used when writing the
`researchers` column. -/
def joinSemicolon : List String → String
  | [] => ""
  | [s] => s
  | s :: rest => s ++ ";" ++ joinSemicolon rest

/-! ## The store

One list of typed rows per table of `PostgresClient::init_schema`.
Opaque ids (`varchar(16)` tokens from `gen_unique_id`) are modelled as
`Nat`, timestamps as `Nat`. -/

/-- A row of the `experiment_versions` table.  The `researchers` column is
kept as the raw `;`-joined string, exactly as stored. -/
structure VersionRow where
  id : Nat
  name : String
  version : String
  date : Nat
  description : String
  researchers : String
deriving DecidableEq, Repr

/-- A row of the `variables` table (the `type` column holds JSON of a
`DataType`; the serde round-trip is injective and total, so the typed value
is stored). -/
structure VarRow where
  name : String
  description : String
  type : DataType
deriving DecidableEq, Repr

/-- A row of the `experiment_variables` table. -/
structure LinkRow where
  varName : String
  exName : String
  exVersionId : Nat
  kind : VariableType
deriving DecidableEq, Repr

/-- A row of the `experiment_instances` table. -/
structure InstanceRow where
  id : Nat
  name : String
  versionId : Nat
deriving DecidableEq, Repr

/-- A row of the `in_values` table (`value` is the serialized text form). -/
structure InValueRow where
  exInstanceId : Nat
  varName : String
  value : String
deriving DecidableEq, Repr

/-- A row of the `runs` table. -/
structure RunRow where
  id : Nat
  exInstanceId : Nat
  date : Nat
deriving DecidableEq, Repr

/-- A row of the `measurements` table (`value` is the serialized text
form). -/
structure MeasurementRow where
  runId : Nat
  varName : String
  value : String
deriving DecidableEq, Repr

/-- The logical relational store behind `PostgresClient`. -/
structure Store where
  experiments : List String
  experimentVersions : List VersionRow
  variablesTable : List VarRow
  experimentVariables : List LinkRow
  experimentInstances : List InstanceRow
  inValues : List InValueRow
  runs : List RunRow
  measurements : List MeasurementRow
deriving DecidableEq, Repr

/-- The empty store. -/
def Store.empty : Store := ⟨[], [], [], [], [], [], [], []⟩

/-- Process state around the store: the store itself, the unique-id
generator (`gen_unique_id`, modelled as a counter) and the clock
(`Utc::now()`). -/
structure Sys where
  store : Store
  nextId : Nat
  now : Nat
deriving DecidableEq, Repr

/-! ## Domain objects -/

/-- `ExperimentVersion` from `experiment.rs`.  The `HashSet` fields are
modelled as lists compared by `eqSet`. -/
structure ExperimentVersion where
  id : Nat
  name : String
  version : String
  date : Nat
  description : String
  researchers : List String
  inputVariables : List Variable
  outputVariables : List Variable
deriving DecidableEq, Repr

/-- `ExperimentInstance` from `experiment.rs`. -/
structure ExperimentInstance (fm : FloatModel) where
  experimentVersion : ExperimentVersion
  inputVariableValues : List (VariableValue fm)
  id : Nat

instance (fm : FloatModel) : DecidableEq (ExperimentInstance fm) :=
  fun a b =>
    decidable_of_iff (a.experimentVersion = b.experimentVersion ∧
      a.inputVariableValues = b.inputVariableValues ∧ a.id = b.id) (by
      cases a; cases b; simp)

/-- `ExperimentRun` from `run.rs`. -/
structure ExperimentRun (fm : FloatModel) where
  experimentInstance : ExperimentInstance fm
  date : Nat
  id : Nat
  measurements : List (VariableValue fm)

/-! ## Reading versions back (`PostgresClient` fetch functions) -/

/-- First row of the `variables` table with the given name (`name` is the
primary key there). -/
def lookupVariable (st : Store) (n : String) : Option VarRow :=
  st.variablesTable.find? (fun r => r.name = n)

/-- The variables linked to version `vid` of experiment `exName` with link
kind `k`: the inner join of `experiment_variables` with `variables`
performed by `fetch_all_experiment_versions_by_name`. -/
def versionVariables (st : Store) (exName : String) (vid : Nat)
    (k : VariableType) : List Variable :=
  (st.experimentVariables.filter
      (fun l => l.exName = exName ∧ l.exVersionId = vid ∧ l.kind = k)).filterMap
    (fun l => (lookupVariable st l.varName).map
      (fun r => ⟨r.name, r.description, r.type⟩))

/-- Decode a version row into a domain `ExperimentVersion` (the per-row part
of `fetch_all_experiment_versions_by_name`: split the `researchers` column
on `';'`, fetch the linked variables). -/
def decodeVersionRow (st : Store) (r : VersionRow) : ExperimentVersion where
  id := r.id
  name := r.name
  version := r.version
  date := r.date
  description := r.description
  researchers := splitSemicolon r.researchers
  inputVariables := versionVariables st r.name r.id .input
  outputVariables := versionVariables st r.name r.id .output

/-- The rows of `experiment_versions` for experiment `name` (inner join with
`experiments` on the name). -/
def versionRowsOf (st : Store) (name : String) : List VersionRow :=
  if name ∈ st.experiments then
    st.experimentVersions.filter (fun r => r.name = name)
  else []

/-- `PostgresClient::fetch_all_experiment_versions_by_name`. -/
def fetchAllVersionsByName (st : Store) (name : String) :
    List ExperimentVersion :=
  (versionRowsOf st name).map (decodeVersionRow st)

/-- First row of maximal date: the stable descending
`sort_by(|a, b| b.date().cmp(a.date()))` followed by `remove(0)` in
`fetch_latest_experiment_version_by_name`. -/
def firstMaxByDate (rows : List VersionRow) : Option VersionRow :=
  rows.foldl (fun acc r =>
    match acc with
    | none => some r
    | some a => if a.date < r.date then some r else some a) none

/-- `PostgresClient::fetch_latest_experiment_version_by_name`. -/
def fetchLatestVersionByName (st : Store) (name : String) :
    Option ExperimentVersion :=
  (firstMaxByDate (versionRowsOf st name)).map (decodeVersionRow st)

/-! ## Persisting versions -/

/-- The variable-insert statement of `add_new_experiment_version`:
`INSERT INTO variables ... ON CONFLICT (name) DO NOTHING`. -/
def insertVariableIfAbsent (st : Store) (v : Variable) : Store :=
  if (lookupVariable st v.name).isSome then st
  else { st with
    variablesTable := st.variablesTable ++ [⟨v.name, v.description, v.dataType⟩] }

/-- The link-insert statement of `add_new_experiment_version`:
`INSERT INTO experiment_variables ...
ON CONFLICT (var_name, ex_version_id) DO NOTHING`. -/
def insertLinkIfAbsent (st : Store) (l : LinkRow) : Store :=
  if st.experimentVariables.any
      (fun e => e.varName = l.varName ∧ e.exVersionId = l.exVersionId) then st
  else { st with experimentVariables := st.experimentVariables ++ [l] }

/-- Encode a domain version as its `experiment_versions` row (researchers
joined with `';'`, as in `add_new_experiment_version`). -/
def encodeVersion (v : ExperimentVersion) : VersionRow :=
  ⟨v.id, v.name, v.version, v.date, v.description,
    joinSemicolon v.researchers⟩

/-- `PostgresClient::add_new_experiment_version` (the transaction body
shared by both insert entry points): insert-if-absent every variable,
insert the version row, then link the variables to the version (input
links first, then output links, mirroring
`input_variables().chain(output_variables())`). -/
def addNewExperimentVersion (st : Store) (v : ExperimentVersion) : Store :=
  let st1 := (v.inputVariables ++ v.outputVariables).foldl
    insertVariableIfAbsent st
  let st2 := { st1 with
    experimentVersions := st1.experimentVersions ++ [encodeVersion v] }
  (v.inputVariables.map (fun w => (VariableType.input, w)) ++
      v.outputVariables.map (fun w => (VariableType.output, w))).foldl
    (fun s kw => insertLinkIfAbsent s ⟨kw.2.name, v.name, v.id, kw.1⟩) st2

/-- `PostgresClient::insert_new_experiment`: register the experiment name,
then add the version. -/
def insertNewExperiment (st : Store) (v : ExperimentVersion) : Store :=
  addNewExperimentVersion
    { st with experiments := st.experiments ++ [v.name] } v

/-- `PostgresClient::insert_new_experiment_version`. -/
def insertNewExperimentVersion (st : Store) (v : ExperimentVersion) :
    Store :=
  addNewExperimentVersion st v

/-! ## The version resolver -/

/-- The comparison in `ExperimentVersion::sync_with_db` deciding whether the
submitted description matches the stored latest version; this is the
negation of the forking condition
`current_version != latest_version.version() || ...` there (all `HashSet`
comparisons are set comparisons). -/
def sameVersion (tag description : String) (researchers : List String)
    (inputVariables outputVariables : List Variable)
    (latest : ExperimentVersion) : Bool :=
  tag == latest.version && description == latest.description &&
    eqSet researchers latest.researchers &&
    eqSet inputVariables latest.inputVariables &&
    eqSet outputVariables latest.outputVariables

/-- `ExperimentVersion::get_current_version` with the database enabled,
i.e. `ExperimentVersion::sync_with_db`.  `tag` is `current_version()`,
fixed for the lifetime of the process. -/
def getCurrentVersion (tag : String) (sys : Sys) (name description : String)
    (researchers : List String)
    (inputVariables outputVariables : List Variable) :
    ExperimentVersion × Sys :=
  match fetchLatestVersionByName sys.store name with
  | some latest =>
    if sameVersion tag description researchers inputVariables
        outputVariables latest then
      (latest, sys)
    else
      let nv : ExperimentVersion :=
        ⟨sys.nextId, name, tag, sys.now, description, researchers,
          inputVariables, outputVariables⟩
      (nv, { sys with
        store := insertNewExperimentVersion sys.store nv
        nextId := sys.nextId + 1 })
  | none =>
    let nv : ExperimentVersion :=
      ⟨sys.nextId, name, tag, sys.now, description, researchers,
        inputVariables, outputVariables⟩
    (nv, { sys with
      store := insertNewExperiment sys.store nv
      nextId := sys.nextId + 1 })

/-! ## The instance resolver -/

/-- The `in_values` rows of one instance id, in row order. -/
def inValuesOf (st : Store) (iid : Nat) : List InValueRow :=
  st.inValues.filter (fun r => r.exInstanceId = iid)

/-- The `experiment_instances` rows of one experiment version (the `WHERE`
clause of `fetch_all_instances_of_experiment_version`). -/
def instanceRowsFor (st : Store) (v : ExperimentVersion) : List InstanceRow :=
  st.experimentInstances.filter (fun i => i.name = v.name ∧ i.versionId = v.id)

/-- Insertion sort on `Nat`, modelling `ORDER BY experiment_instances.id`. -/
def insertSorted (n : Nat) : List Nat → List Nat
  | [] => [n]
  | x :: xs => if n ≤ x then n :: x :: xs else x :: insertSorted n xs

/-- Sort a list of ids ascending. -/
def sortNat : List Nat → List Nat
  | [] => []
  | x :: xs => insertSorted x (sortNat xs)

/-- Sequence an option-producing function over a list, failing if any
element fails (the behaviour of `collect::<Result<Vec<_>>>()`). -/
def optionMap {α β : Type} (f : α → Option β) : List α → Option (List β)
  | [] => some []
  | x :: xs => (f x).bind (fun y => (optionMap f xs).map (fun ys => y :: ys))

/-- Parse one `in_values` row back into a `VariableValue` against the
version's input variables: `find` the variable by name, parse the text
through its declared data type, then `VariableValue::from_variable`.
`none` models the `anyhow` error paths ("Unexpected variable ...",
"Value ... does not match expected data type"). -/
def parseInValueRow (fm : FloatModel) (v : ExperimentVersion)
    (r : InValueRow) : Option (VariableValue fm) :=
  match v.inputVariables.find? (fun w => w.name = r.varName) with
  | none => none
  | some w => (w.dataType.parseStrAsGenericValue fm r.value).bind
      (fun gv => VariableValue.fromVariable fm w gv)

/-- `PostgresClient::fetch_all_instances_of_experiment_version`: the inner
join of `in_values` with `experiment_instances` (so an instance with no
`in_values` rows contributes no join row and is invisible), ordered by
instance id, grouped by id, each group parsed.  `none` models the `anyhow`
error of any row failing to parse. -/
def fetchAllInstancesOfVersion (fm : FloatModel) (st : Store)
    (v : ExperimentVersion) : Option (List (ExperimentInstance fm)) :=
  let ids := ((sortNat ((instanceRowsFor st v).map (·.id))).dedup).filter
    (fun iid => ¬ (inValuesOf st iid).isEmpty)
  optionMap (fun iid =>
    (optionMap (parseInValueRow fm v) (inValuesOf st iid)).map
      (fun vals => ⟨v, vals, iid⟩)) ids

/-- The matching predicate of `fetch_specific_instance`: same number of
values, and every stored value present among the requested ones. -/
def instanceMatches (fm : FloatModel)
    (input_variable_values : List (VariableValue fm))
    (inst : ExperimentInstance fm) : Bool :=
  inst.inputVariableValues.length = input_variable_values.length &&
    inst.inputVariableValues.all (fun actual =>
      input_variable_values.any (fun expected => expected = actual))

/-- `PostgresClient::fetch_specific_instance`: fetch all instances of the
version and look for a matching one. -/
def fetchSpecificInstance (fm : FloatModel) (st : Store)
    (v : ExperimentVersion)
    (input_variable_values : List (VariableValue fm)) :
    Option (Option (ExperimentInstance fm)) :=
  (fetchAllInstancesOfVersion fm st v).map
    (fun all => all.find? (instanceMatches fm input_variable_values))

/-- `PostgresClient::insert_new_experiment_instance`: one
`experiment_instances` row plus one `in_values` row per assignment, in one
transaction. -/
def insertNewExperimentInstance (fm : FloatModel) (st : Store)
    (inst : ExperimentInstance fm) : Store :=
  { st with
    experimentInstances := st.experimentInstances ++
      [⟨inst.id, inst.experimentVersion.name, inst.experimentVersion.id⟩]
    inValues := st.inValues ++ inst.inputVariableValues.map
      (fun vv => ⟨inst.id, vv.var.name, vv.value.display fm⟩) }

/-- `ExperimentInstance::from_experiment_version` with the database
enabled: check the submitted variable names against the version's
input-variable names (a mismatch panics in Rust; an `Except.error` here),
then return the existing instance with exactly the same value assignment
if there is one, otherwise insert a new instance under a fresh id. -/
def fromExperimentVersion (fm : FloatModel) (sys : Sys)
    (v : ExperimentVersion)
    (input_variable_values : List (VariableValue fm)) :
    Except String (ExperimentInstance fm × Sys) :=
  if ¬ eqSet (input_variable_values.map (fun vv => vv.var.name))
      (v.inputVariables.map (fun w => w.name)) = true then
    .error "panic: input variable values do not match the set of input variables"
  else
    match fetchSpecificInstance fm sys.store v input_variable_values with
    | none => .error "Failed to fetch specific experiment instance from database"
    | some (some existing_instance) => .ok (existing_instance, sys)
    | some none =>
      let new_instance : ExperimentInstance fm :=
        ⟨v, input_variable_values, sys.nextId⟩
      .ok (new_instance, { sys with
        store := insertNewExperimentInstance fm sys.store new_instance
        nextId := sys.nextId + 1 })

/-! ## The run recorder -/

/-- `RunContext::add_measurement`: look up the named output variable (a
missing name panics in Rust; `none` here), build the `VariableValue`
through `from_variable` (a type mismatch also panics), and push it onto
the accumulator. -/
def addMeasurement (fm : FloatModel) (inst : ExperimentInstance fm)
    (measurements : List (VariableValue fm)) (variable_name : String)
    (value : GenericValue fm.F) : Option (List (VariableValue fm)) :=
  match inst.experimentVersion.outputVariables.find?
      (fun v => v.name = variable_name) with
  | none => none
  | some v => (VariableValue.fromVariable fm v value).map
      (fun vv => measurements ++ [vv])

/-- `RunContext::to_run`: compare the set of measured variables with the
version's output-variable set (a `HashSet` comparison, so duplicate
measurements of one variable collapse), then stamp the current date and a
fresh id. -/
def toRun (fm : FloatModel) (inst : ExperimentInstance fm)
    (measurements : List (VariableValue fm)) (date id : Nat) :
    Except String (ExperimentRun fm) :=
  if eqSet (measurements.map (fun m => m.var))
      inst.experimentVersion.outputVariables then
    .ok ⟨inst, date, id, measurements⟩
  else .error "Missing measurements for output variables"

/-- `PostgresClient::insert_new_run`: one `runs` row plus one
`measurements` row per recorded measurement, in one transaction. -/
def insertNewRun (fm : FloatModel) (st : Store) (run : ExperimentRun fm) :
    Store :=
  { st with
    runs := st.runs ++ [⟨run.id, run.experimentInstance.id, run.date⟩]
    measurements := st.measurements ++ run.measurements.map
      (fun m => ⟨run.id, m.var.name, m.value.display fm⟩) }

/-- `ExperimentInstance::run` with the database enabled.  The caller's
`run_fn` is represented by its outcome: either the error it returned, or
the list of measurements it reported through the `RunContext` (in
reporting order).  On success the accumulated context is validated by
`to_run` and only then persisted by `insert_new_run`. -/
def runExperimentInstance (fm : FloatModel) (sys : Sys)
    (inst : ExperimentInstance fm)
    (runResult : Except String (List (VariableValue fm))) :
    Except String (ExperimentRun fm) × Sys :=
  match runResult with
  | .error e =>
    (.error ("Failed to execute experiment run function: " ++ e), sys)
  | .ok measurements =>
    match toRun fm inst measurements sys.now sys.nextId with
    | .error e => (.error ("Failed to get data for run: " ++ e), sys)
    | .ok run =>
      (.ok run, { sys with
        store := insertNewRun fm sys.store run
        nextId := sys.nextId + 1 })

/-! ## The cascade deleter -/

/-- The table-level delete statements issued inside the deletion
transactions, tagged by target table. -/
inductive DeleteStep where
  | variableLinks
  | measurements
  | runs
  | inValues
  | instances
  | versions
deriving DecidableEq, Repr

/-- Does a run row belong (via its instance) to version `vid`?  The
`USING`-join of delete step 2 of `delete_experiment_version`. -/
def runOfVersion (st : Store) (vid : Nat) (r : RunRow) : Bool :=
  st.experimentInstances.any
    (fun i => i.id = r.exInstanceId ∧ i.versionId = vid)

/-- Does a measurement row belong (via its run and instance) to version
`vid`?  The `USING`-join of delete step 1 of `delete_experiment_version`. -/
def measurementOfVersion (st : Store) (vid : Nat) (m : MeasurementRow) :
    Bool :=
  st.runs.any (fun r => r.id = m.runId ∧ runOfVersion st vid r = true)

/-- Does an `in_values` row belong (via its instance) to version `vid`?
The `USING`-join of delete step 3 of `delete_experiment_version`. -/
def inValueOfVersion (st : Store) (vid : Nat) (w : InValueRow) : Bool :=
  st.experimentInstances.any
    (fun i => i.id = w.exInstanceId ∧ i.versionId = vid)

/-- One delete statement of the version-scoped cascade
(`PostgresClient::delete_experiment_version`, the private
transaction-scoped function), applied to the current store. -/
def applyDeleteStep (vid : Nat) (st : Store) : DeleteStep → Store
  | .variableLinks =>
    { st with experimentVariables := st.experimentVariables.filter (fun l => ¬ l.exVersionId = vid) }
  | .measurements =>
    { st with measurements := st.measurements.filter (fun m => ¬ measurementOfVersion st vid m = true) }
  | .runs =>
    { st with runs := st.runs.filter (fun r => ¬ runOfVersion st vid r = true) }
  | .inValues =>
    { st with inValues := st.inValues.filter (fun w => ¬ inValueOfVersion st vid w = true) }
  | .instances =>
    { st with experimentInstances := st.experimentInstances.filter (fun i => ¬ i.versionId = vid) }
  | .versions =>
    { st with experimentVersions := st.experimentVersions.filter (fun r => ¬ r.id = vid) }

/-- The order in which `PostgresClient::delete_experiment_version` issues
its delete statements: variable links first, then measurements, runs,
`in_values`, instances, and finally the version row. -/
def deleteExperimentVersionSteps : List DeleteStep :=
  [.variableLinks, .measurements, .runs, .inValues, .instances, .versions]

/-- The version-scoped cascade: the delete statements of
`PostgresClient::delete_experiment_version` executed in source order. -/
def deleteExperimentVersionTx (st : Store) (vid : Nat) : Store :=
  deleteExperimentVersionSteps.foldl (applyDeleteStep vid) st

/-- `Database::delete_experiment_version` for `PostgresClient`: the public
entry point, one transaction around the version-scoped cascade. -/
def deleteExperimentVersion (st : Store) (v : ExperimentVersion) : Store :=
  deleteExperimentVersionTx st v.id

/-- `PostgresClient::delete_experiment`: fetch all versions of the
experiment; when there are none, return with no write at all; otherwise
run the version-scoped cascade for every version and then delete the
`experiments` row, all in one transaction. -/
def deleteExperiment (st : Store) (name : String) : Store :=
  let versions_of_experiment := fetchAllVersionsByName st name
  if versions_of_experiment.isEmpty then st
  else
    let st' := versions_of_experiment.foldl
      (fun s v => deleteExperimentVersionTx s v.id) st
    { st' with experiments := st'.experiments.filter (fun n => ¬ n = name) }

/-- Does a measurement row belong (via its run) to instance `iid`?  The
`USING`-join of delete step 1 of `delete_experiment_instance`. -/
def measurementOfInstance (st : Store) (iid : Nat) (m : MeasurementRow) :
    Bool :=
  st.runs.any (fun r => r.id = m.runId ∧ r.exInstanceId = iid)

/-- One delete statement of the instance-scoped cascade
(`PostgresClient::delete_experiment_instance`); the version-scoped-only
steps do not occur there. -/
def applyInstanceDeleteStep (iid : Nat) (st : Store) : DeleteStep → Store
  | .measurements =>
    { st with measurements := st.measurements.filter (fun m => ¬ measurementOfInstance st iid m = true) }
  | .runs =>
    { st with runs := st.runs.filter (fun r => ¬ r.exInstanceId = iid) }
  | .inValues =>
    { st with inValues := st.inValues.filter (fun w => ¬ w.exInstanceId = iid) }
  | .instances =>
    { st with experimentInstances := st.experimentInstances.filter (fun i => ¬ i.id = iid) }
  | _ => st

/-- The order in which `PostgresClient::delete_experiment_instance` issues
its delete statements. -/
def deleteExperimentInstanceSteps : List DeleteStep :=
  [.measurements, .runs, .inValues, .instances]

/-- `Database::delete_experiment_instance` for `PostgresClient`: one
transaction around the instance-scoped cascade. -/
def deleteExperimentInstance (st : Store) (iid : Nat) : Store :=
  deleteExperimentInstanceSteps.foldl (applyInstanceDeleteStep iid) st


/-! ## Basic lemmas -/

lemma eqSet_iff {α : Type} [DecidableEq α] (l₁ l₂ : List α) :
    eqSet l₁ l₂ = true ↔ ∀ x, x ∈ l₁ ↔ x ∈ l₂ := by
  simp only [eqSet, Bool.and_eq_true, List.all_eq_true, decide_eq_true_eq]
  constructor
  · rintro ⟨h₁, h₂⟩ x
    exact ⟨fun hx => h₁ x hx, fun hx => h₂ x hx⟩
  · intro h
    exact ⟨fun x hx => (h x).mp hx, fun x hx => (h x).mpr hx⟩

lemma eqSet_self {α : Type} [DecidableEq α] (l : List α) : eqSet l l = true := by
  simp [eqSet_iff]

/-! ## C8: value round-trip -/

lemma parse_display_of_accepts (fm : FloatModel)
    (hrt : FloatRoundTrip fm) (v : Variable) (gv : GenericValue fm.F)
    (hacc : v.accepts fm gv = true) :
    v.dataType.parseStrAsGenericValue fm (gv.display fm) = some gv := by
  cases hdt : v.dataType <;> cases gv <;>
    simp [Variable.accepts, hdt] at hacc <;>
    simp [DataType.parseStrAsGenericValue, GenericValue.display, hrt _]
  all_goals rename_i b; cases b <;> simp [parseBool, boolToString]

/-- **C8**: for every variable and every value accepted by the variable's
declared data type, parsing the serialized (`Display`) text form of the
value back through `parse_str_as_generic_value` of that data type yields
the value itself.  The `f64` case rests on the `FloatRoundTrip` guarantee
of Rust's `f64` `Display`/`FromStr` pair. -/
theorem value_serialization_roundtrip (fm : FloatModel)
    (hrt : FloatRoundTrip fm) (v : Variable) (gv : GenericValue fm.F)
    (hacc : v.accepts fm gv = true) :
    v.dataType.parseStrAsGenericValue fm (gv.display fm) = some gv :=
  parse_display_of_accepts fm hrt v gv hacc

/-- Witness for C8 at the representative values of the claim:
`Text` with `"a,b\nc"`, `Bool` with `true`, and `Unit`/`Number` with a
numeric value of the concrete float model. -/
theorem value_serialization_roundtrip_witness :
    FloatRoundTrip stringFM ∧
      (Variable.accepts stringFM ⟨"t", "", .text⟩ (.str "a,b\nc") = true ∧
        DataType.text.parseStrAsGenericValue stringFM
          ((GenericValue.str "a,b\nc").display stringFM) =
            some (.str "a,b\nc")) ∧
      (Variable.accepts stringFM ⟨"b", "", .bool⟩ (.bool true) = true ∧
        DataType.bool.parseStrAsGenericValue stringFM
          ((GenericValue.bool true).display stringFM) = some (.bool true)) ∧
      (Variable.accepts stringFM ⟨"n", "", .number⟩ (.numeric "3.14") = true ∧
        DataType.number.parseStrAsGenericValue stringFM
          ((GenericValue.numeric "3.14").display stringFM) =
            some (.numeric "3.14")) :=
  ⟨fun _ => rfl,
    ⟨rfl, value_serialization_roundtrip stringFM (fun _ => rfl)
      ⟨"t", "", .text⟩ (.str "a,b\nc") rfl⟩,
    ⟨rfl, value_serialization_roundtrip stringFM (fun _ => rfl)
      ⟨"b", "", .bool⟩ (.bool true) rfl⟩,
    ⟨rfl, value_serialization_roundtrip stringFM (fun _ => rfl)
      ⟨"n", "", .number⟩ (.numeric "3.14") rfl⟩⟩

/-! ## C10: every constructible `VariableValue` is well-typed -/

/-- **C10**: `VariableValue::from_variable` is the only constructor of
`VariableValue`, and every value it succeeds in constructing satisfies the
type-consistency invariant `variable.accepts(value)` for exactly the
submitted variable and value. -/
theorem fromVariable_wellTyped (fm : FloatModel) (v : Variable)
    (gv : GenericValue fm.F) (vv : VariableValue fm)
    (h : VariableValue.fromVariable fm v gv = some vv) :
    vv.var.accepts fm vv.value = true ∧ vv.var = v ∧ vv.value = gv := by
  unfold VariableValue.fromVariable at h
  by_cases hacc : v.accepts fm gv = true
  · simp [hacc] at h
    subst h
    exact ⟨hacc, rfl, rfl⟩
  · simp [hacc] at h

/-- Witness for C10: a boolean measurement value for a `Bool` variable. -/
theorem fromVariable_wellTyped_witness :
    VariableValue.fromVariable stringFM ⟨"ok", "", .bool⟩ (.bool true) =
      some ⟨⟨"ok", "", .bool⟩, .bool true⟩ ∧
    (@VariableValue.mk stringFM ⟨"ok", "", .bool⟩
        (.bool true)).var.accepts stringFM (.bool true) = true :=
  ⟨rfl, (fromVariable_wellTyped stringFM ⟨"ok", "", .bool⟩ (.bool true)
    ⟨⟨"ok", "", .bool⟩, .bool true⟩ rfl).1⟩

/-! ## C9: a failing run action persists nothing -/

/-- **C9**: if the caller's run action fails, `ExperimentInstance::run`
returns the error wrapped in context and the store is left exactly as it
was (no run row, no measurement row); and if the action succeeds but
`to_run` validation fails, the store is likewise untouched — validation
happens strictly before the single persistence call. -/
theorem run_failure_persists_nothing (fm : FloatModel) (sys : Sys)
    (inst : ExperimentInstance fm) (e : String)
    (ms : List (VariableValue fm)) (e' : String)
    (hval : toRun fm inst ms sys.now sys.nextId = .error e') :
    runExperimentInstance fm sys inst (.error e) =
      (.error ("Failed to execute experiment run function: " ++ e), sys) ∧
    runExperimentInstance fm sys inst (.ok ms) =
      (.error ("Failed to get data for run: " ++ e'), sys) := by
  refine ⟨rfl, ?_⟩
  simp [runExperimentInstance, hval]

/-- Witness for C9: an instance with one output variable, a failing action,
and a successful action that reported no measurement. -/
theorem run_failure_persists_nothing_witness :
    toRun stringFM
        ⟨⟨0, "E", "t", 0, "", [], [], [⟨"Y", "", .number⟩]⟩, [], 1⟩ []
        (Sys.mk Store.empty 2 5).now (Sys.mk Store.empty 2 5).nextId =
      .error "Missing measurements for output variables" ∧
    runExperimentInstance stringFM (Sys.mk Store.empty 2 5)
        ⟨⟨0, "E", "t", 0, "", [], [], [⟨"Y", "", .number⟩]⟩, [], 1⟩
        (.error "boom") =
      (.error ("Failed to execute experiment run function: " ++ "boom"),
        Sys.mk Store.empty 2 5) :=
  ⟨rfl, (run_failure_persists_nothing stringFM (Sys.mk Store.empty 2 5)
    ⟨⟨0, "E", "t", 0, "", [], [], [⟨"Y", "", .number⟩]⟩, [], 1⟩ "boom" []
    "Missing measurements for output variables" rfl).1⟩

/-! ## C4: run-completeness validation

The `to_run` check compares the *set* of measured variables against the
*set* of output variables (`HashSet<&Variable>` equality), so a duplicate
measurement of one output variable collapses in the set and passes the
check, contradicting the code's own comment "Check that we have exactly
one measurement for each output variable": the run is persisted with two
measurement rows for the same variable. -/

/-- **C4** (code-bug evidence): with one output variable `Y`, an action
that reports `Y` twice passes `to_run` validation and
`ExperimentInstance::run` persists a run with two measurement rows,
while the claim (and the code's own comment) requires a validation error
and no persisted rows. -/
theorem duplicate_measurement_accepted :
    toRun stringFM
        ⟨⟨0, "E", "t", 0, "", [], [], [⟨"Y", "", .number⟩]⟩, [], 1⟩
        [⟨⟨"Y", "", .number⟩, .numeric "1"⟩,
          ⟨⟨"Y", "", .number⟩, .numeric "2"⟩] 5 2 =
      .ok ⟨⟨⟨0, "E", "t", 0, "", [], [], [⟨"Y", "", .number⟩]⟩, [], 1⟩, 5, 2,
        [⟨⟨"Y", "", .number⟩, .numeric "1"⟩,
          ⟨⟨"Y", "", .number⟩, .numeric "2"⟩]⟩ ∧
    (runExperimentInstance stringFM (Sys.mk Store.empty 2 5)
        ⟨⟨0, "E", "t", 0, "", [], [], [⟨"Y", "", .number⟩]⟩, [], 1⟩
        (.ok [⟨⟨"Y", "", .number⟩, .numeric "1"⟩,
          ⟨⟨"Y", "", .number⟩, .numeric "2"⟩])).2.store.measurements =
      [⟨2, "Y", "1"⟩, ⟨2, "Y", "2"⟩] := by
  constructor <;> rfl


/-! ## C5: cascade-deletion order -/

/-- Modelled from the spec: the deletion order asserted for every
cascade-delete entry point — measurements first, then runs, then
input-values, then instances, then variable-links, then versions. -/
def claimedDeletionOrder : List DeleteStep :=
  [.measurements, .runs, .inValues, .instances, .variableLinks, .versions]

/-- **C5** (counterexample): `delete_experiment_version` does not issue its
delete statements in the claimed dependency order — its first delete
statement targets the variable links, which the claim places fifth. -/
theorem deletion_order_counterexample :
    deleteExperimentVersionSteps ≠ claimedDeletionOrder ∧
    deleteExperimentVersionSteps.head? = some .variableLinks := by
  constructor <;> decide

/-- **C5** (amended): the version-scoped cascade deletes the variable
links *first* and then follows the dependency order measurements → runs →
input-values → instances → versions; `delete_experiment_instance` follows
the dependency order on its tables; and `delete_experiment` (when the
experiment has versions) runs the version-scoped cascade for every version
of the experiment before deleting the experiment row, all within one
transaction per entry point. -/
theorem deletion_order_amended :
    deleteExperimentVersionSteps =
      DeleteStep.variableLinks ::
        [.measurements, .runs, .inValues, .instances, .versions] ∧
    deleteExperimentInstanceSteps =
      [.measurements, .runs, .inValues, .instances] ∧
    ∀ st name, (fetchAllVersionsByName st name).isEmpty = false →
      deleteExperiment st name =
        { (fetchAllVersionsByName st name).foldl
            (fun s v => deleteExperimentVersionTx s v.id) st with
          experiments := ((fetchAllVersionsByName st name).foldl
            (fun s v => deleteExperimentVersionTx s v.id) st).experiments.filter
              (fun n => ¬ n = name) } := by
  refine ⟨rfl, rfl, ?_⟩
  intro st name h
  simp [deleteExperiment, h]

/-- A one-experiment, one-version store used to instantiate theorems about
deletion on concrete data. -/
def sampleVersionStore : Store :=
  { Store.empty with
    experiments := ["E"]
    experimentVersions := [⟨0, "E", "t", 0, "", ""⟩] }

/-- Witness for C5 (amended) on the concrete one-version store. -/
theorem deletion_order_amended_witness :
    (fetchAllVersionsByName sampleVersionStore "E").isEmpty = false ∧
    deleteExperiment sampleVersionStore "E" =
      { (fetchAllVersionsByName sampleVersionStore "E").foldl
          (fun s v => deleteExperimentVersionTx s v.id) sampleVersionStore with
        experiments := ((fetchAllVersionsByName sampleVersionStore "E").foldl
          (fun s v => deleteExperimentVersionTx s v.id)
            sampleVersionStore).experiments.filter (fun n => ¬ n = "E") } :=
  ⟨rfl, deletion_order_amended.2.2 sampleVersionStore "E" rfl⟩

/-! ## Catalog lookup lemmas -/

lemma lookupVariable_eq_of_table (st₁ st₂ : Store)
    (h : st₁.variablesTable = st₂.variablesTable) (n : String) :
    lookupVariable st₁ n = lookupVariable st₂ n := by
  unfold lookupVariable
  rw [h]

lemma lookupVariable_insertVariableIfAbsent (st : Store) (v : Variable)
    (n : String) :
    lookupVariable (insertVariableIfAbsent st v) n =
      match lookupVariable st n with
      | some r => some r
      | none =>
        if v.name = n then some ⟨v.name, v.description, v.dataType⟩
        else none := by
  cases hvn : lookupVariable st v.name with
  | some r₀ =>
    have : insertVariableIfAbsent st v = st := by
      unfold insertVariableIfAbsent
      simp [hvn]
    rw [this]
    cases h : lookupVariable st n with
    | some r => simp
    | none =>
      by_cases hn : v.name = n
      · subst hn
        rw [h] at hvn
        exact absurd hvn (by simp)
      · simp [hn]
  | none =>
    have hins : insertVariableIfAbsent st v =
        { st with variablesTable :=
            st.variablesTable ++ [⟨v.name, v.description, v.dataType⟩] } := by
      unfold insertVariableIfAbsent
      simp [hvn]
    rw [hins]
    unfold lookupVariable
    rw [List.find?_append]
    cases h : st.variablesTable.find? (fun r => r.name = n) with
    | some r => simp
    | none => by_cases hn : v.name = n <;> simp [hn]

lemma lookupVariable_foldl_insertVariableIfAbsent (L : List Variable)
    (st : Store) (n : String) :
    lookupVariable (L.foldl insertVariableIfAbsent st) n =
      match lookupVariable st n with
      | some r => some r
      | none => (L.find? (fun v => v.name = n)).map
          (fun v => ⟨v.name, v.description, v.dataType⟩) := by
  induction L generalizing st with
  | nil => cases h : lookupVariable st n <;> simp [h]
  | cons v L ih =>
    rw [List.foldl_cons, ih, lookupVariable_insertVariableIfAbsent]
    cases h : lookupVariable st n with
    | some r => simp
    | none =>
      by_cases hn : v.name = n
      · simp [hn]
      · simp [hn]

lemma insertLinkIfAbsent_variablesTable (st : Store) (l : LinkRow) :
    (insertLinkIfAbsent st l).variablesTable = st.variablesTable := by
  unfold insertLinkIfAbsent
  split <;> rfl

lemma foldl_insertLink_variablesTable
    (L : List (VariableType × Variable)) (nm : String) (vid : Nat)
    (st : Store) :
    (L.foldl (fun s kw => insertLinkIfAbsent s ⟨kw.2.name, nm, vid, kw.1⟩)
      st).variablesTable = st.variablesTable := by
  induction L generalizing st with
  | nil => rfl
  | cons kw L ih =>
    rw [List.foldl_cons, ih, insertLinkIfAbsent_variablesTable]

lemma addNewExperimentVersion_variablesTable (st : Store)
    (v : ExperimentVersion) :
    (addNewExperimentVersion st v).variablesTable =
      ((v.inputVariables ++ v.outputVariables).foldl
        insertVariableIfAbsent st).variablesTable := by
  unfold addNewExperimentVersion
  rw [foldl_insertLink_variablesTable]

lemma lookupVariable_addNewExperimentVersion (st : Store)
    (v : ExperimentVersion) (n : String) :
    lookupVariable (addNewExperimentVersion st v) n =
      match lookupVariable st n with
      | some r => some r
      | none => ((v.inputVariables ++ v.outputVariables).find?
          (fun w => w.name = n)).map
            (fun w => ⟨w.name, w.description, w.dataType⟩) := by
  rw [lookupVariable_eq_of_table _
    ((v.inputVariables ++ v.outputVariables).foldl insertVariableIfAbsent st)
    (addNewExperimentVersion_variablesTable st v)]
  exact lookupVariable_foldl_insertVariableIfAbsent _ st n

lemma variablesTable_foldl_suffix (L : List Variable) (st : Store) :
    ∃ suffix, (L.foldl insertVariableIfAbsent st).variablesTable =
      st.variablesTable ++ suffix := by
  induction L generalizing st with
  | nil => exact ⟨[], by simp⟩
  | cons v L ih =>
    rw [List.foldl_cons]
    obtain ⟨s₂, hs₂⟩ := ih (insertVariableIfAbsent st v)
    cases hvn : lookupVariable st v.name with
    | some r₀ =>
      refine ⟨s₂, ?_⟩
      rw [hs₂]
      unfold insertVariableIfAbsent
      simp [hvn]
    | none =>
      refine ⟨⟨v.name, v.description, v.dataType⟩ :: s₂, ?_⟩
      rw [hs₂]
      unfold insertVariableIfAbsent
      simp [hvn]

/-! ## C7: the variable catalog is insert-if-absent, never update -/

/-- **C7**: persisting a new `ExperimentVersion` — through either insert
entry point — leaves every pre-existing row of the `variables` table
untouched (the lookup of any already-present name returns exactly the old
row, even when the submitted version mentions that name with a different
description or data type), and only ever appends to the table. -/
theorem variable_catalog_never_overwritten (st : Store)
    (v : ExperimentVersion) (n : String) (r : VarRow)
    (h : lookupVariable st n = some r) :
    lookupVariable (insertNewExperimentVersion st v) n = some r ∧
    lookupVariable (insertNewExperiment st v) n = some r ∧
    ∃ suffix, (insertNewExperimentVersion st v).variablesTable =
      st.variablesTable ++ suffix := by
  refine ⟨?_, ?_, ?_⟩
  · rw [insertNewExperimentVersion, lookupVariable_addNewExperimentVersion, h]
  · rw [insertNewExperiment, lookupVariable_addNewExperimentVersion]
    rw [show lookupVariable
        { st with experiments := st.experiments ++ [v.name] } n =
          lookupVariable st n from rfl, h]
  · rw [insertNewExperimentVersion, addNewExperimentVersion_variablesTable]
    exact variablesTable_foldl_suffix _ st

/-- Witness for C7: a catalog holding `X : Number`, and a new version
mentioning `X` as a `Label` with a different description; the stored row
survives unchanged. -/
theorem variable_catalog_never_overwritten_witness :
    lookupVariable
        { Store.empty with variablesTable := [⟨"X", "d", .number⟩] } "X" =
      some ⟨"X", "d", .number⟩ ∧
    lookupVariable
        (insertNewExperimentVersion
          { Store.empty with variablesTable := [⟨"X", "d", .number⟩] }
          ⟨1, "E", "t", 0, "", [], [⟨"X", "other", .label⟩], []⟩) "X" =
      some ⟨"X", "d", .number⟩ :=
  ⟨rfl, (variable_catalog_never_overwritten
    { Store.empty with variablesTable := [⟨"X", "d", .number⟩] }
    ⟨1, "E", "t", 0, "", [], [⟨"X", "other", .label⟩], []⟩ "X"
    ⟨"X", "d", .number⟩ rfl).1⟩


/-! ## Frame and characterization lemmas for `addNewExperimentVersion` -/

lemma insertVariableIfAbsent_experimentVariables (st : Store) (v : Variable) :
    (insertVariableIfAbsent st v).experimentVariables =
      st.experimentVariables := by
  unfold insertVariableIfAbsent
  split <;> rfl

lemma insertVariableIfAbsent_experimentVersions (st : Store) (v : Variable) :
    (insertVariableIfAbsent st v).experimentVersions =
      st.experimentVersions := by
  unfold insertVariableIfAbsent
  split <;> rfl

lemma insertVariableIfAbsent_experiments (st : Store) (v : Variable) :
    (insertVariableIfAbsent st v).experiments = st.experiments := by
  unfold insertVariableIfAbsent
  split <;> rfl

lemma foldl_insertVariableIfAbsent_experimentVariables (L : List Variable)
    (st : Store) :
    (L.foldl insertVariableIfAbsent st).experimentVariables =
      st.experimentVariables := by
  induction L generalizing st with
  | nil => rfl
  | cons v L ih =>
    rw [List.foldl_cons, ih, insertVariableIfAbsent_experimentVariables]

lemma foldl_insertVariableIfAbsent_experimentVersions (L : List Variable)
    (st : Store) :
    (L.foldl insertVariableIfAbsent st).experimentVersions =
      st.experimentVersions := by
  induction L generalizing st with
  | nil => rfl
  | cons v L ih =>
    rw [List.foldl_cons, ih, insertVariableIfAbsent_experimentVersions]

lemma foldl_insertVariableIfAbsent_experiments (L : List Variable)
    (st : Store) :
    (L.foldl insertVariableIfAbsent st).experiments = st.experiments := by
  induction L generalizing st with
  | nil => rfl
  | cons v L ih =>
    rw [List.foldl_cons, ih, insertVariableIfAbsent_experiments]

lemma insertLinkIfAbsent_experimentVersions (st : Store) (l : LinkRow) :
    (insertLinkIfAbsent st l).experimentVersions = st.experimentVersions := by
  unfold insertLinkIfAbsent
  split <;> rfl

lemma insertLinkIfAbsent_experiments (st : Store) (l : LinkRow) :
    (insertLinkIfAbsent st l).experiments = st.experiments := by
  unfold insertLinkIfAbsent
  split <;> rfl

lemma foldl_insertLink_experimentVersions
    (L : List (VariableType × Variable)) (nm : String) (vid : Nat)
    (st : Store) :
    (L.foldl (fun s kw => insertLinkIfAbsent s ⟨kw.2.name, nm, vid, kw.1⟩)
      st).experimentVersions = st.experimentVersions := by
  induction L generalizing st with
  | nil => rfl
  | cons kw L ih =>
    rw [List.foldl_cons, ih, insertLinkIfAbsent_experimentVersions]

lemma foldl_insertLink_experiments
    (L : List (VariableType × Variable)) (nm : String) (vid : Nat)
    (st : Store) :
    (L.foldl (fun s kw => insertLinkIfAbsent s ⟨kw.2.name, nm, vid, kw.1⟩)
      st).experiments = st.experiments := by
  induction L generalizing st with
  | nil => rfl
  | cons kw L ih =>
    rw [List.foldl_cons, ih, insertLinkIfAbsent_experiments]

lemma addNewExperimentVersion_experimentVersions (st : Store)
    (v : ExperimentVersion) :
    (addNewExperimentVersion st v).experimentVersions =
      st.experimentVersions ++ [encodeVersion v] := by
  unfold addNewExperimentVersion
  rw [foldl_insertLink_experimentVersions]
  simp [foldl_insertVariableIfAbsent_experimentVersions]

lemma addNewExperimentVersion_experiments (st : Store)
    (v : ExperimentVersion) :
    (addNewExperimentVersion st v).experiments = st.experiments := by
  unfold addNewExperimentVersion
  rw [foldl_insertLink_experiments]
  simp [foldl_insertVariableIfAbsent_experiments]

/-- The link fold appends exactly one link row per submitted
(kind, variable) pair, provided no existing link of that version id bears a
submitted name and the submitted names are distinct. -/
lemma foldl_insertLink_experimentVariables
    (L : List (VariableType × Variable)) (nm : String) (vid : Nat)
    (st : Store)
    (hfresh : ∀ l ∈ st.experimentVariables, l.exVersionId = vid →
      l.varName ∉ L.map (fun kw => kw.2.name))
    (hnodup : (L.map (fun kw => kw.2.name)).Nodup) :
    (L.foldl (fun s kw => insertLinkIfAbsent s ⟨kw.2.name, nm, vid, kw.1⟩)
      st).experimentVariables =
      st.experimentVariables ++
        L.map (fun kw => (⟨kw.2.name, nm, vid, kw.1⟩ : LinkRow)) := by
  induction L generalizing st with
  | nil => simp
  | cons kw L ih =>
    rw [List.foldl_cons]
    have hnoconf : insertLinkIfAbsent st ⟨kw.2.name, nm, vid, kw.1⟩ =
        { st with experimentVariables :=
            st.experimentVariables ++ [⟨kw.2.name, nm, vid, kw.1⟩] } := by
      unfold insertLinkIfAbsent
      have : ¬ st.experimentVariables.any
          (fun e => e.varName = kw.2.name ∧ e.exVersionId = vid) = true := by
        simp only [List.any_eq_true, decide_eq_true_eq, not_exists]
        rintro e ⟨hmem, hname, hvid⟩
        exact (hfresh e hmem hvid) (by simp [hname])
      rw [if_neg this]
    rw [hnoconf, ih]
    · simp
    · intro l hl hvid
      rcases List.mem_append.mp hl with hold | hnew
      · have := hfresh l hold hvid
        simp only [List.map_cons, List.mem_cons, not_or] at this
        intro hmem
        exact this.2 hmem
      · simp only [List.mem_singleton] at hnew
        subst hnew
        simp only [List.map_cons, List.nodup_cons] at hnodup
        intro hmem
        exact hnodup.1 hmem
    · simp only [List.map_cons, List.nodup_cons] at hnodup
      exact hnodup.2


lemma find?_name_nodup (ws : List Variable) (w : Variable) (hmem : w ∈ ws)
    (hnodup : (ws.map Variable.name).Nodup) :
    ws.find? (fun x => x.name = w.name) = some w := by
  induction ws with
  | nil => cases hmem
  | cons x ws ih =>
    simp only [List.map_cons, List.nodup_cons] at hnodup
    rcases List.mem_cons.mp hmem with rfl | hmem
    · rw [List.find?_cons_of_pos _ (by simp)]
    · have hne : ¬ (x.name = w.name) := by
        intro hx
        exact hnodup.1 (hx ▸ List.mem_map.mpr ⟨w, hmem, rfl⟩)
      rw [List.find?_cons_of_neg _ (by simpa using hne)]
      exact ih hmem hnodup.2

lemma filterMap_decode_mapped_links (ws : List Variable) (st' : Store)
    (nm : String) (vid : Nat) (k : VariableType)
    (hlook : ∀ w ∈ ws, lookupVariable st' w.name =
      some ⟨w.name, w.description, w.dataType⟩) :
    ((ws.map (fun w => (⟨w.name, nm, vid, k⟩ : LinkRow))).filterMap
      (fun l => (lookupVariable st' l.varName).map
        (fun r => (⟨r.name, r.description, r.type⟩ : Variable)))) = ws := by
  induction ws with
  | nil => rfl
  | cons w ws ih =>
    simp only [List.map_cons, List.filterMap_cons]
    rw [hlook w (List.mem_cons_self w ws)]
    rw [ih (fun x hx => hlook x (List.mem_cons_of_mem _ hx))]
    rfl

lemma addNewExperimentVersion_experimentVariables (st : Store)
    (v : ExperimentVersion)
    (hfresh : ∀ l ∈ st.experimentVariables, l.exVersionId ≠ v.id)
    (hnodup : ((v.inputVariables ++ v.outputVariables).map
      Variable.name).Nodup) :
    (addNewExperimentVersion st v).experimentVariables =
      st.experimentVariables ++
        (v.inputVariables.map
          (fun w => (⟨w.name, v.name, v.id, .input⟩ : LinkRow)) ++
         v.outputVariables.map
          (fun w => (⟨w.name, v.name, v.id, .output⟩ : LinkRow))) := by
  simp only [addNewExperimentVersion]
  rw [foldl_insertLink_experimentVariables]
  · simp only [foldl_insertVariableIfAbsent_experimentVariables,
      List.map_append, List.map_map]
    rfl
  · intro l hl hvid
    simp only [foldl_insertVariableIfAbsent_experimentVariables] at hl
    exact absurd hvid (hfresh l hl)
  · have hmapeq : ((v.inputVariables.map (fun w => (VariableType.input, w)) ++
        v.outputVariables.map (fun w => (VariableType.output, w))).map
          (fun kw => kw.2.name)) =
        (v.inputVariables ++ v.outputVariables).map Variable.name := by
      simp only [List.map_append, List.map_map]
      rfl
    rw [hmapeq]
    exact hnodup

lemma versionVariables_addNewExperimentVersion (st : Store)
    (v : ExperimentVersion)
    (hfresh : ∀ l ∈ st.experimentVariables, l.exVersionId ≠ v.id)
    (hnodup : ((v.inputVariables ++ v.outputVariables).map
      Variable.name).Nodup)
    (hcompat : ∀ w ∈ v.inputVariables ++ v.outputVariables, ∀ r,
      lookupVariable st w.name = some r →
        r = ⟨w.name, w.description, w.dataType⟩) :
    versionVariables (addNewExperimentVersion st v) v.name v.id .input =
      v.inputVariables ∧
    versionVariables (addNewExperimentVersion st v) v.name v.id .output =
      v.outputVariables := by
  have hlook : ∀ w ∈ v.inputVariables ++ v.outputVariables,
      lookupVariable (addNewExperimentVersion st v) w.name =
        some ⟨w.name, w.description, w.dataType⟩ := by
    intro w hw
    rw [lookupVariable_addNewExperimentVersion]
    cases h : lookupVariable st w.name with
    | some r => simp [hcompat w hw r h]
    | none =>
      simp only []
      rw [find?_name_nodup _ w hw hnodup]
      rfl
  have hlinks := addNewExperimentVersion_experimentVariables st v hfresh hnodup
  have hold : ∀ k : VariableType, st.experimentVariables.filter
      (fun l => l.exName = v.name ∧ l.exVersionId = v.id ∧ l.kind = k) = [] := by
    intro k
    rw [List.filter_eq_nil_iff]
    intro l hl
    simp only [decide_eq_true_eq, not_and]
    intro _ hvid
    exact absurd hvid (hfresh l hl)
  constructor
  · unfold versionVariables
    rw [hlinks, List.filter_append, List.filter_append, hold, List.nil_append]
    rw [List.filter_map, List.filter_map]
    have h₁ : (v.inputVariables.filter
        ((fun l => decide (l.exName = v.name ∧ l.exVersionId = v.id ∧
          l.kind = VariableType.input)) ∘
          (fun w => (⟨w.name, v.name, v.id, .input⟩ : LinkRow)))) =
        v.inputVariables := by
      apply List.filter_eq_self.mpr
      intro w _
      simp
    have h₂ : (v.outputVariables.filter
        ((fun l => decide (l.exName = v.name ∧ l.exVersionId = v.id ∧
          l.kind = VariableType.input)) ∘
          (fun w => (⟨w.name, v.name, v.id, .output⟩ : LinkRow)))) = [] := by
      rw [List.filter_eq_nil_iff]
      intro w _
      simp
    rw [h₁, h₂, List.map_nil, List.append_nil]
    exact filterMap_decode_mapped_links v.inputVariables _ v.name v.id .input
      (fun w hw => hlook w (List.mem_append.mpr (Or.inl hw)))
  · unfold versionVariables
    rw [hlinks, List.filter_append, List.filter_append, hold, List.nil_append]
    rw [List.filter_map, List.filter_map]
    have h₁ : (v.inputVariables.filter
        ((fun l => decide (l.exName = v.name ∧ l.exVersionId = v.id ∧
          l.kind = VariableType.output)) ∘
          (fun w => (⟨w.name, v.name, v.id, .input⟩ : LinkRow)))) = [] := by
      rw [List.filter_eq_nil_iff]
      intro w _
      simp
    have h₂ : (v.outputVariables.filter
        ((fun l => decide (l.exName = v.name ∧ l.exVersionId = v.id ∧
          l.kind = VariableType.output)) ∘
          (fun w => (⟨w.name, v.name, v.id, .output⟩ : LinkRow)))) =
        v.outputVariables := by
      apply List.filter_eq_self.mpr
      intro w _
      simp
    rw [h₁, h₂, List.map_nil, List.nil_append]
    exact filterMap_decode_mapped_links v.outputVariables _ v.name v.id .output
      (fun w hw => hlook w (List.mem_append.mpr (Or.inr hw)))


/-! ## Locating the freshly inserted version -/

lemma foldl_firstMax_lt (rows : List VersionRow) (acc : Option VersionRow)
    (d : Nat) (hrows : ∀ x ∈ rows, x.date < d)
    (hacc : ∀ a, acc = some a → a.date < d) :
    ∀ a, rows.foldl (fun acc r =>
      match acc with
      | none => some r
      | some a => if a.date < r.date then some r else some a) acc = some a →
      a.date < d := by
  induction rows generalizing acc with
  | nil =>
    intro a ha
    exact hacc a ha
  | cons x rows ih =>
    intro a ha
    rw [List.foldl_cons] at ha
    refine ih _ (fun y hy => hrows y (List.mem_cons_of_mem _ hy)) ?_ a ha
    intro b hb
    cases acc with
    | none =>
      cases hb
      exact hrows x (List.mem_cons_self x rows)
    | some a' =>
      by_cases hlt : a'.date < x.date
      · rw [show (match some a' with
            | none => some x
            | some a => if a.date < x.date then some x else some a) =
              if a'.date < x.date then some x else some a' from rfl,
          if_pos hlt] at hb
        cases hb
        exact hrows x (List.mem_cons_self x rows)
      · rw [show (match some a' with
            | none => some x
            | some a => if a.date < x.date then some x else some a) =
              if a'.date < x.date then some x else some a' from rfl,
          if_neg hlt] at hb
        cases hb
        exact hacc _ rfl

lemma firstMaxByDate_append (rows : List VersionRow) (r : VersionRow)
    (h : ∀ x ∈ rows, x.date < r.date) :
    firstMaxByDate (rows ++ [r]) = some r := by
  unfold firstMaxByDate
  rw [List.foldl_append]
  cases hacc : rows.foldl (fun acc r =>
      match acc with
      | none => some r
      | some a => if a.date < r.date then some r else some a) none with
  | none => simp
  | some a =>
    have hlt : a.date < r.date :=
      foldl_firstMax_lt rows none r.date h (by intro b hb; cases hb) a hacc
    simp [hlt]

lemma fetchLatest_after_insert (st st' : Store) (nv : ExperimentVersion)
    (hvers : st'.experimentVersions =
      st.experimentVersions ++ [encodeVersion nv])
    (hmem : nv.name ∈ st'.experiments)
    (hdate : ∀ r ∈ st.experimentVersions, r.date < nv.date) :
    fetchLatestVersionByName st' nv.name =
      some (decodeVersionRow st' (encodeVersion nv)) := by
  unfold fetchLatestVersionByName versionRowsOf
  rw [if_pos hmem, hvers, List.filter_append]
  have hrow : (([encodeVersion nv] : List VersionRow).filter
      (fun r => r.name = nv.name)) = [encodeVersion nv] := by
    simp [encodeVersion]
  rw [hrow, firstMaxByDate_append]
  · rfl
  · intro x hx
    exact hdate x (List.mem_of_mem_filter hx)

lemma eqSet_symm {α : Type} [DecidableEq α] {l₁ l₂ : List α}
    (h : eqSet l₁ l₂ = true) : eqSet l₂ l₁ = true := by
  rw [eqSet_iff] at h ⊢
  intro x
  exact (h x).symm

lemma sameVersion_new_row (st' : Store) (nid : Nat) (name tag : String)
    (date : Nat) (desc : String) (R : List String) (I O : List Variable)
    (hR : eqSet (splitSemicolon (joinSemicolon R)) R = true)
    (hin : versionVariables st' name nid .input = I)
    (hout : versionVariables st' name nid .output = O) :
    sameVersion tag desc R I O
      (decodeVersionRow st'
        (encodeVersion ⟨nid, name, tag, date, desc, R, I, O⟩)) = true := by
  unfold sameVersion decodeVersionRow encodeVersion
  simp only []
  rw [hin, hout]
  simp [eqSet_self, eqSet_symm hR]


/-! ## Branch equations for `getCurrentVersion` -/

lemma getCurrentVersion_eq_same (tag : String) (sys : Sys)
    (name desc : String) (R : List String) (I O : List Variable)
    (latest : ExperimentVersion)
    (hfetch : fetchLatestVersionByName sys.store name = some latest)
    (hsame : sameVersion tag desc R I O latest = true) :
    getCurrentVersion tag sys name desc R I O = (latest, sys) := by
  unfold getCurrentVersion
  simp only [hfetch, hsame, if_true]

lemma getCurrentVersion_eq_fork (tag : String) (sys : Sys)
    (name desc : String) (R : List String) (I O : List Variable)
    (latest : ExperimentVersion)
    (hfetch : fetchLatestVersionByName sys.store name = some latest)
    (hdiff : sameVersion tag desc R I O latest = false) :
    getCurrentVersion tag sys name desc R I O =
      (⟨sys.nextId, name, tag, sys.now, desc, R, I, O⟩,
        ⟨addNewExperimentVersion sys.store
          ⟨sys.nextId, name, tag, sys.now, desc, R, I, O⟩,
          sys.nextId + 1, sys.now⟩) := by
  unfold getCurrentVersion
  simp only [hfetch, hdiff, Bool.false_eq_true, if_false]
  rfl

lemma getCurrentVersion_eq_new (tag : String) (sys : Sys)
    (name desc : String) (R : List String) (I O : List Variable)
    (hfetch : fetchLatestVersionByName sys.store name = none) :
    getCurrentVersion tag sys name desc R I O =
      (⟨sys.nextId, name, tag, sys.now, desc, R, I, O⟩,
        ⟨addNewExperimentVersion
          { sys.store with experiments := sys.store.experiments ++ [name] }
          ⟨sys.nextId, name, tag, sys.now, desc, R, I, O⟩,
          sys.nextId + 1, sys.now⟩) := by
  unfold getCurrentVersion
  simp only [hfetch]
  rfl

/-- After either insert path of the version resolver has run, a repeated
call with the same arguments finds the freshly inserted row as the latest
version, decodes it to a version that passes the `sameVersion` comparison,
and therefore returns that row's id without writing. -/
lemma getCurrentVersion_after_insert (tag : String) (sys : Sys)
    (name desc : String) (R : List String) (I O : List Variable)
    (st₀ : Store)
    (hvars : st₀.variablesTable = sys.store.variablesTable)
    (hlinks : st₀.experimentVariables = sys.store.experimentVariables)
    (hversions : st₀.experimentVersions = sys.store.experimentVersions)
    (hmem : name ∈ st₀.experiments)
    (hdate : ∀ r ∈ sys.store.experimentVersions, r.date < sys.now)
    (hfreshL : ∀ l ∈ sys.store.experimentVariables,
      l.exVersionId ≠ sys.nextId)
    (hR : eqSet (splitSemicolon (joinSemicolon R)) R = true)
    (hnodup : ((I ++ O).map Variable.name).Nodup)
    (hcompat : ∀ w ∈ I ++ O, ∀ r,
      lookupVariable sys.store w.name = some r →
        r = ⟨w.name, w.description, w.dataType⟩) :
    (getCurrentVersion tag
      ⟨addNewExperimentVersion st₀
        ⟨sys.nextId, name, tag, sys.now, desc, R, I, O⟩,
        sys.nextId + 1, sys.now⟩ name desc R I O).1.id = sys.nextId ∧
    (getCurrentVersion tag
      ⟨addNewExperimentVersion st₀
        ⟨sys.nextId, name, tag, sys.now, desc, R, I, O⟩,
        sys.nextId + 1, sys.now⟩ name desc R I O).2 =
      ⟨addNewExperimentVersion st₀
        ⟨sys.nextId, name, tag, sys.now, desc, R, I, O⟩,
        sys.nextId + 1, sys.now⟩ := by
  have hfetch : fetchLatestVersionByName
      (addNewExperimentVersion st₀
        ⟨sys.nextId, name, tag, sys.now, desc, R, I, O⟩) name =
      some (decodeVersionRow
        (addNewExperimentVersion st₀
          ⟨sys.nextId, name, tag, sys.now, desc, R, I, O⟩)
        (encodeVersion ⟨sys.nextId, name, tag, sys.now, desc, R, I, O⟩)) := by
    refine fetchLatest_after_insert st₀ _
      ⟨sys.nextId, name, tag, sys.now, desc, R, I, O⟩
      (addNewExperimentVersion_experimentVersions st₀ _) ?_ ?_
    · rw [addNewExperimentVersion_experiments]
      exact hmem
    · intro r hr
      rw [hversions] at hr
      exact hdate r hr
  have hvv := versionVariables_addNewExperimentVersion st₀
    ⟨sys.nextId, name, tag, sys.now, desc, R, I, O⟩
    (by intro l hl
        rw [hlinks] at hl
        exact hfreshL l hl)
    hnodup
    (by intro w hw r hr
        rw [lookupVariable_eq_of_table st₀ sys.store hvars] at hr
        exact hcompat w hw r hr)
  have hsame := sameVersion_new_row
    (addNewExperimentVersion st₀
      ⟨sys.nextId, name, tag, sys.now, desc, R, I, O⟩)
    sys.nextId name tag sys.now desc R I O hR hvv.1 hvv.2
  have hcall := getCurrentVersion_eq_same tag
    ⟨addNewExperimentVersion st₀
      ⟨sys.nextId, name, tag, sys.now, desc, R, I, O⟩,
      sys.nextId + 1, sys.now⟩ name desc R I O _ hfetch hsame
  rw [hcall]
  exact ⟨rfl, rfl⟩


/-! ## Decoding pre-existing rows is unaffected by an insert -/

lemma foldl_insertLink_filter_other (L : List (VariableType × Variable))
    (nm₀ : String) (vid₀ : Nat) (st : Store) (p : LinkRow → Bool)
    (hp : ∀ varName k, p ⟨varName, nm₀, vid₀, k⟩ = false) :
    ((L.foldl (fun s kw => insertLinkIfAbsent s ⟨kw.2.name, nm₀, vid₀, kw.1⟩)
      st).experimentVariables).filter p =
      st.experimentVariables.filter p := by
  induction L generalizing st with
  | nil => rfl
  | cons kw L ih =>
    rw [List.foldl_cons, ih]
    unfold insertLinkIfAbsent
    split
    · rfl
    · simp [hp]

lemma versionVariables_addNew_other (st : Store) (v : ExperimentVersion)
    (nm : String) (vid : Nat) (k : VariableType) (hvid : vid ≠ v.id)
    (hresolve : ∀ l ∈ st.experimentVariables,
      (lookupVariable st l.varName).isSome) :
    versionVariables (addNewExperimentVersion st v) nm vid k =
      versionVariables st nm vid k := by
  unfold versionVariables
  have hfilter : (addNewExperimentVersion st v).experimentVariables.filter
      (fun l => l.exName = nm ∧ l.exVersionId = vid ∧ l.kind = k) =
      st.experimentVariables.filter
        (fun l => l.exName = nm ∧ l.exVersionId = vid ∧ l.kind = k) := by
    simp only [addNewExperimentVersion]
    rw [foldl_insertLink_filter_other]
    · rw [show ({ (v.inputVariables ++ v.outputVariables).foldl
          insertVariableIfAbsent st with experimentVersions :=
          ((v.inputVariables ++ v.outputVariables).foldl
            insertVariableIfAbsent st).experimentVersions ++
              [encodeVersion v] } : Store).experimentVariables =
          ((v.inputVariables ++ v.outputVariables).foldl
            insertVariableIfAbsent st).experimentVariables from rfl]
      rw [foldl_insertVariableIfAbsent_experimentVariables]
    · intro varName k'
      simp only [decide_eq_false_iff_not, not_and]
      intro _ hvid'
      exact absurd hvid'.symm hvid
  rw [hfilter]
  apply List.filterMap_congr
  intro l hl
  have hl' := List.mem_of_mem_filter hl
  cases hlk : lookupVariable st l.varName with
  | none =>
    have := hresolve l hl'
    rw [hlk] at this
    simp at this
  | some r =>
    rw [lookupVariable_addNewExperimentVersion, hlk]

lemma decodeVersionRow_addNew (st : Store) (v : ExperimentVersion)
    (r₀ : VersionRow) (hvid : r₀.id ≠ v.id)
    (hresolve : ∀ l ∈ st.experimentVariables,
      (lookupVariable st l.varName).isSome) :
    decodeVersionRow (addNewExperimentVersion st v) r₀ =
      decodeVersionRow st r₀ := by
  unfold decodeVersionRow
  rw [versionVariables_addNew_other st v r₀.name r₀.id .input hvid hresolve,
    versionVariables_addNew_other st v r₀.name r₀.id .output hvid hresolve]

lemma foldl_firstMax_mem :
    ∀ (l : List VersionRow) (acc : Option VersionRow) (r₀ : VersionRow),
      l.foldl (fun acc r =>
        match acc with
        | none => some r
        | some a => if a.date < r.date then some r else some a) acc =
          some r₀ →
      acc = some r₀ ∨ r₀ ∈ l := by
  intro l
  induction l with
  | nil =>
    intro acc r₀ h
    exact Or.inl h
  | cons x l ih =>
    intro acc r₀ h
    rw [List.foldl_cons] at h
    rcases ih _ r₀ h with hacc | hmem
    · cases acc with
      | none =>
        cases hacc
        exact Or.inr (List.mem_cons_self x l)
      | some a =>
        by_cases hlt : a.date < x.date
        · rw [show (match some a with
              | none => some x
              | some a => if a.date < x.date then some x else some a) =
                if a.date < x.date then some x else some a from rfl,
            if_pos hlt] at hacc
          cases hacc
          exact Or.inr (List.mem_cons_self x l)
        · rw [show (match some a with
              | none => some x
              | some a => if a.date < x.date then some x else some a) =
                if a.date < x.date then some x else some a from rfl,
            if_neg hlt] at hacc
          exact Or.inl hacc
    · exact Or.inr (List.mem_cons_of_mem x hmem)

lemma fetchLatest_mem_rows (st : Store) (name : String)
    (latest : ExperimentVersion)
    (hfetch : fetchLatestVersionByName st name = some latest) :
    ∃ r₀ ∈ versionRowsOf st name,
      decodeVersionRow st r₀ = latest ∧ r₀.name = name := by
  unfold fetchLatestVersionByName at hfetch
  cases hmax : firstMaxByDate (versionRowsOf st name) with
  | none => rw [hmax] at hfetch; cases hfetch
  | some r₀ =>
    rw [hmax] at hfetch
    have hmem : r₀ ∈ versionRowsOf st name := by
      rcases foldl_firstMax_mem _ none r₀ hmax with h | h
      · cases h
      · exact h
    refine ⟨r₀, hmem, by cases hfetch; rfl, ?_⟩
    unfold versionRowsOf at hmem
    by_cases hm : name ∈ st.experiments
    · rw [if_pos hm] at hmem
      have := List.of_mem_filter hmem
      simpa using this
    · rw [if_neg hm] at hmem
      cases hmem

lemma fetchLatest_name_mem (st : Store) (name : String)
    (latest : ExperimentVersion)
    (hfetch : fetchLatestVersionByName st name = some latest) :
    name ∈ st.experiments := by
  by_contra hnm
  unfold fetchLatestVersionByName versionRowsOf at hfetch
  rw [if_neg hnm] at hfetch
  simp [firstMaxByDate] at hfetch


/-! ## C1: idempotent version resolution -/

/-- **C1** (amended): calling the version resolver twice with identical
arguments and no interleaved writes returns the same id both times and
performs no write on the second call, *provided* the `;`-joined researcher
encoding decodes back to the submitted researcher set (which fails for the
empty set and for names containing `';'`), the submitted input and output
variable names are pairwise distinct, and no submitted variable clashes
with a differently-defined catalog entry of the same name; store dates lie
before the current clock and the fresh id is genuinely fresh. -/
theorem version_resolution_idempotent (tag : String) (sys : Sys)
    (name desc : String) (R : List String) (I O : List Variable)
    (hdate : ∀ r ∈ sys.store.experimentVersions, r.date < sys.now)
    (hfreshL : ∀ l ∈ sys.store.experimentVariables,
      l.exVersionId ≠ sys.nextId)
    (hR : eqSet (splitSemicolon (joinSemicolon R)) R = true)
    (hnodup : ((I ++ O).map Variable.name).Nodup)
    (hcompat : ∀ w ∈ I ++ O, ∀ r,
      lookupVariable sys.store w.name = some r →
        r = ⟨w.name, w.description, w.dataType⟩) :
    (getCurrentVersion tag (getCurrentVersion tag sys name desc R I O).2
        name desc R I O).1.id =
      (getCurrentVersion tag sys name desc R I O).1.id ∧
    (getCurrentVersion tag (getCurrentVersion tag sys name desc R I O).2
        name desc R I O).2 =
      (getCurrentVersion tag sys name desc R I O).2 := by
  cases hfetch : fetchLatestVersionByName sys.store name with
  | some latest =>
    by_cases hsame : sameVersion tag desc R I O latest = true
    · rw [getCurrentVersion_eq_same tag sys name desc R I O latest hfetch
        hsame]
      rw [show ((latest, sys) : ExperimentVersion × Sys).2 = sys from rfl,
        getCurrentVersion_eq_same tag sys name desc R I O latest hfetch
          hsame]
      exact ⟨rfl, rfl⟩
    · have hdiff : sameVersion tag desc R I O latest = false :=
        Bool.eq_false_iff.mpr hsame
      rw [getCurrentVersion_eq_fork tag sys name desc R I O latest hfetch
        hdiff]
      exact getCurrentVersion_after_insert tag sys name desc R I O sys.store
        rfl rfl rfl (fetchLatest_name_mem sys.store name latest hfetch)
        hdate hfreshL hR hnodup hcompat
  | none =>
    rw [getCurrentVersion_eq_new tag sys name desc R I O hfetch]
    exact getCurrentVersion_after_insert tag sys name desc R I O
      { sys.store with experiments := sys.store.experiments ++ [name] }
      rfl rfl rfl (by simp) hdate hfreshL hR hnodup hcompat

/-- **C1** (counterexample to the claim as stated): resolving twice with an
*empty* researcher set from an empty store creates a second version on the
second call — the stored `researchers` column `""` decodes to `{""}`,
which differs from `∅`, so the second call forks instead of returning the
first id.  The ids differ (0 vs 1) and the second call writes. -/
theorem version_resolution_idempotent_counterexample :
    (getCurrentVersion "t" ⟨Store.empty, 0, 0⟩ "E" "" [] [] []).1.id = 0 ∧
    (getCurrentVersion "t"
      (getCurrentVersion "t" ⟨Store.empty, 0, 0⟩ "E" "" [] [] []).2
        "E" "" [] [] []).1.id = 1 ∧
    (getCurrentVersion "t"
      (getCurrentVersion "t" ⟨Store.empty, 0, 0⟩ "E" "" [] [] []).2
        "E" "" [] [] []).2 ≠
      (getCurrentVersion "t" ⟨Store.empty, 0, 0⟩ "E" "" [] [] []).2 := by
  refine ⟨rfl, rfl, ?_⟩
  decide

/-- Witness for C1 (amended) on concrete data: one researcher `"alice"`,
one input and one output variable, an empty store. -/
theorem version_resolution_idempotent_witness :
    eqSet (splitSemicolon (joinSemicolon ["alice"])) ["alice"] = true ∧
    ((([⟨"X", "", .label⟩] ++ [⟨"Y", "", .number⟩] : List Variable)).map
      Variable.name).Nodup ∧
    (getCurrentVersion "t"
      (getCurrentVersion "t" ⟨Store.empty, 0, 5⟩ "E" "d" ["alice"]
        [⟨"X", "", .label⟩] [⟨"Y", "", .number⟩]).2
      "E" "d" ["alice"] [⟨"X", "", .label⟩] [⟨"Y", "", .number⟩]).1.id =
      (getCurrentVersion "t" ⟨Store.empty, 0, 5⟩ "E" "d" ["alice"]
        [⟨"X", "", .label⟩] [⟨"Y", "", .number⟩]).1.id ∧
    (getCurrentVersion "t"
      (getCurrentVersion "t" ⟨Store.empty, 0, 5⟩ "E" "d" ["alice"]
        [⟨"X", "", .label⟩] [⟨"Y", "", .number⟩]).2
      "E" "d" ["alice"] [⟨"X", "", .label⟩] [⟨"Y", "", .number⟩]).2 =
      (getCurrentVersion "t" ⟨Store.empty, 0, 5⟩ "E" "d" ["alice"]
        [⟨"X", "", .label⟩] [⟨"Y", "", .number⟩]).2 := by
  refine ⟨by decide, by decide, ?_⟩
  have h := version_resolution_idempotent "t" ⟨Store.empty, 0, 5⟩ "E" "d"
    ["alice"] [⟨"X", "", .label⟩] [⟨"Y", "", .number⟩]
    (by intro r hr; cases hr)
    (by intro l hl; cases hl)
    (by decide) (by decide)
    (by intro w hw r hr; simp [lookupVariable, Store.empty] at hr)
  exact ⟨h.1, h.2⟩

/-! ## C2: version forking preserves the prior version -/

/-- **C2**: when the submitted description differs from the stored latest
version in the version tag, description, researcher set, input- or
output-variable set, the resolver persists a new version row under the
freshly generated id (distinct from every stored id, in particular the
latest one), appends it without deleting or modifying any existing row,
and the prior latest version remains fetchable unchanged. -/
theorem version_forking (tag : String) (sys : Sys) (name desc : String)
    (R : List String) (I O : List Variable) (latest : ExperimentVersion)
    (hfetch : fetchLatestVersionByName sys.store name = some latest)
    (hdiff : sameVersion tag desc R I O latest = false)
    (hfreshV : ∀ r ∈ sys.store.experimentVersions, r.id ≠ sys.nextId)
    (hresolve : ∀ l ∈ sys.store.experimentVariables,
      (lookupVariable sys.store l.varName).isSome) :
    (getCurrentVersion tag sys name desc R I O).1.id = sys.nextId ∧
    (getCurrentVersion tag sys name desc R I O).1.id ≠ latest.id ∧
    (getCurrentVersion tag sys name desc R I O).2.store.experimentVersions =
      sys.store.experimentVersions ++
        [encodeVersion ⟨sys.nextId, name, tag, sys.now, desc, R, I, O⟩] ∧
    latest ∈ fetchAllVersionsByName
      (getCurrentVersion tag sys name desc R I O).2.store name := by
  obtain ⟨r₀, hr₀mem, hr₀dec, hr₀name⟩ :=
    fetchLatest_mem_rows sys.store name latest hfetch
  have hr₀mem' : r₀ ∈ sys.store.experimentVersions := by
    unfold versionRowsOf at hr₀mem
    by_cases hm : name ∈ sys.store.experiments
    · rw [if_pos hm] at hr₀mem
      exact List.mem_of_mem_filter hr₀mem
    · rw [if_neg hm] at hr₀mem
      cases hr₀mem
  rw [getCurrentVersion_eq_fork tag sys name desc R I O latest hfetch hdiff]
  refine ⟨rfl, ?_, ?_, ?_⟩
  · rw [show latest.id = r₀.id from by rw [← hr₀dec]; rfl]
    exact fun h => (hfreshV r₀ hr₀mem') (by simpa using h.symm)
  · exact addNewExperimentVersion_experimentVersions sys.store _
  · unfold fetchAllVersionsByName
    have hmemrows : r₀ ∈ versionRowsOf
        (addNewExperimentVersion sys.store
          ⟨sys.nextId, name, tag, sys.now, desc, R, I, O⟩) name := by
      unfold versionRowsOf
      rw [if_pos (by
        rw [addNewExperimentVersion_experiments]
        exact fetchLatest_name_mem sys.store name latest hfetch)]
      rw [addNewExperimentVersion_experimentVersions sys.store _,
        List.filter_append]
      refine List.mem_append.mpr (Or.inl ?_)
      exact List.mem_filter.mpr ⟨hr₀mem', by simpa using hr₀name⟩
    refine List.mem_map.mpr ⟨r₀, hmemrows, ?_⟩
    rw [decodeVersionRow_addNew sys.store _ r₀
      (by
        intro h
        exact (hfreshV r₀ hr₀mem') h)
      hresolve]
    exact hr₀dec


/-- A store holding one experiment `E` with one stored version (id 0),
used to instantiate the forking theorem. -/
def forkWitnessStore : Store :=
  { Store.empty with
    experiments := ["E"]
    experimentVersions := [⟨0, "E", "t", 3, "a", ""⟩] }

/-- Witness for C2: the stored latest version of `E` has description
`"a"`; resolving with description `"b"` forks to a new id and keeps the
old version fetchable. -/
theorem version_forking_witness :
    fetchLatestVersionByName forkWitnessStore "E" =
      some ⟨0, "E", "t", 3, "a", [""], [], []⟩ ∧
    sameVersion "t" "b" [] [] [] ⟨0, "E", "t", 3, "a", [""], [], []⟩ =
      false ∧
    ((getCurrentVersion "t" ⟨forkWitnessStore, 1, 5⟩ "E" "b" [] [] []).1.id =
        1 ∧
      (getCurrentVersion "t" ⟨forkWitnessStore, 1, 5⟩ "E" "b" [] [] []).1.id ≠
        (ExperimentVersion.mk 0 "E" "t" 3 "a" [""] [] []).id ∧
      (getCurrentVersion "t" ⟨forkWitnessStore, 1, 5⟩ "E" "b"
          [] [] []).2.store.experimentVersions =
        forkWitnessStore.experimentVersions ++
          [encodeVersion ⟨1, "E", "t", 5, "b", [], [], []⟩] ∧
      (ExperimentVersion.mk 0 "E" "t" 3 "a" [""] [] []) ∈
        fetchAllVersionsByName
          (getCurrentVersion "t" ⟨forkWitnessStore, 1, 5⟩ "E" "b"
            [] [] []).2.store "E") := by
  refine ⟨by decide, by decide, ?_⟩
  have h := version_forking "t" ⟨forkWitnessStore, 1, 5⟩ "E" "b" [] [] []
    ⟨0, "E", "t", 3, "a", [""], [], []⟩ (by decide) (by decide) (by decide)
    (by intro l hl; cases hl)
  exact ⟨h.1, h.2.1, h.2.2.1, h.2.2.2⟩


/-! ## Lemmas about `optionMap`, sorting, and matching -/

lemma optionMap_map_roundtrip {α β : Type} (f : β → Option α) (g : α → β)
    (l : List α) (h : ∀ x ∈ l, f (g x) = some x) :
    optionMap f (l.map g) = some l := by
  induction l with
  | nil => rfl
  | cons x xs ih =>
    simp only [List.map_cons, optionMap]
    rw [h x (List.mem_cons_self x xs),
      ih (fun y hy => h y (List.mem_cons_of_mem _ hy))]
    rfl

lemma optionMap_isSome_of_forall {α β : Type} (f : α → Option β)
    (l : List α) (h : ∀ x ∈ l, (f x).isSome) :
    ∃ ys, optionMap f l = some ys := by
  induction l with
  | nil => exact ⟨[], rfl⟩
  | cons x xs ih =>
    obtain ⟨ys, hys⟩ := ih (fun y hy => h y (List.mem_cons_of_mem _ hy))
    obtain ⟨y, hy⟩ :=
      Option.isSome_iff_exists.mp (h x (List.mem_cons_self x xs))
    exact ⟨y :: ys, by simp [optionMap, hy, hys]⟩

lemma optionMap_forall_isSome {α β : Type} (f : α → Option β) (l : List α)
    (ys : List β) (h : optionMap f l = some ys) :
    ∀ x ∈ l, (f x).isSome := by
  induction l generalizing ys with
  | nil =>
    intro x hx
    cases hx
  | cons x xs ih =>
    intro z hz
    simp only [optionMap] at h
    cases hfx : f x with
    | none =>
      rw [hfx] at h
      simp at h
    | some y =>
      rw [hfx] at h
      cases hrest : optionMap f xs with
      | none =>
        rw [hrest] at h
        simp at h
      | some ys' =>
        rcases List.mem_cons.mp hz with rfl | hz'
        · simp [hfx]
        · exact ih ys' hrest z hz'

lemma optionMap_mem_source {α β : Type} (f : α → Option β) (l : List α)
    (ys : List β) (h : optionMap f l = some ys) :
    ∀ y ∈ ys, ∃ x ∈ l, f x = some y := by
  induction l generalizing ys with
  | nil =>
    cases h
    intro y hy
    cases hy
  | cons x xs ih =>
    intro y hy
    simp only [optionMap] at h
    cases hfx : f x with
    | none =>
      rw [hfx] at h
      simp at h
    | some y₀ =>
      rw [hfx] at h
      cases hrest : optionMap f xs with
      | none =>
        rw [hrest] at h
        simp at h
      | some ys' =>
        rw [hrest] at h
        simp only [Option.map_some', Option.some_bind, Option.some.injEq] at h
        subst h
        rcases List.mem_cons.mp hy with rfl | hy'
        · exact ⟨x, List.mem_cons_self x xs, hfx⟩
        · obtain ⟨x', hx', hfx'⟩ := ih ys' hrest y hy'
          exact ⟨x', List.mem_cons_of_mem _ hx', hfx'⟩

lemma optionMap_mem_target {α β : Type} (f : α → Option β) (l : List α)
    (ys : List β) (h : optionMap f l = some ys) (x : α) (hx : x ∈ l)
    (y : β) (hy : f x = some y) : y ∈ ys := by
  induction l generalizing ys with
  | nil => cases hx
  | cons z zs ih =>
    simp only [optionMap] at h
    cases hfz : f z with
    | none =>
      rw [hfz] at h
      simp at h
    | some y₀ =>
      rw [hfz] at h
      cases hrest : optionMap f zs with
      | none =>
        rw [hrest] at h
        simp at h
      | some ys' =>
        rw [hrest] at h
        simp only [Option.map_some', Option.some_bind, Option.some.injEq] at h
        subst h
        rcases List.mem_cons.mp hx with rfl | hx'
        · rw [hfz] at hy
          cases hy
          exact List.mem_cons_self _ _
        · exact List.mem_cons_of_mem _ (ih ys' hrest hx')

lemma insertSorted_mem (n x : Nat) (l : List Nat) :
    x ∈ insertSorted n l ↔ x = n ∨ x ∈ l := by
  induction l with
  | nil => simp [insertSorted]
  | cons a l ih =>
    unfold insertSorted
    by_cases h : n ≤ a
    · simp [h]
    · simp only [h, if_false, List.mem_cons, ih]
      tauto

lemma sortNat_mem (x : Nat) (l : List Nat) : x ∈ sortNat l ↔ x ∈ l := by
  induction l with
  | nil => simp [sortNat]
  | cons a l ih => simp [sortNat, insertSorted_mem, ih]

lemma find?_congr {α : Type} (p q : α → Bool) (l : List α)
    (h : ∀ x ∈ l, p x = q x) : l.find? p = l.find? q := by
  induction l with
  | nil => rfl
  | cons x xs ih =>
    cases hx : p x with
    | true =>
      rw [List.find?_cons_of_pos _ hx,
        List.find?_cons_of_pos _ ((h x (List.mem_cons_self x xs)) ▸ hx)]
    | false =>
      rw [List.find?_cons_of_neg _ (by simp [hx]),
        List.find?_cons_of_neg _ (by
          rw [← h x (List.mem_cons_self x xs)]
          simp [hx])]
      exact ih (fun y hy => h y (List.mem_cons_of_mem _ hy))

lemma instanceMatches_perm (fm : FloatModel)
    (vals₁ vals₂ : List (VariableValue fm)) (hperm : vals₂.Perm vals₁)
    (inst : ExperimentInstance fm) :
    instanceMatches fm vals₂ inst = instanceMatches fm vals₁ inst := by
  unfold instanceMatches
  rw [hperm.length_eq]
  congr 1
  apply Bool.eq_iff_iff.mpr
  simp only [List.all_eq_true, List.any_eq_true, decide_eq_true_eq]
  constructor
  · rintro h a ha
    obtain ⟨e, he, hee⟩ := h a ha
    exact ⟨e, hperm.mem_iff.mp he, hee⟩
  · rintro h a ha
    obtain ⟨e, he, hee⟩ := h a ha
    exact ⟨e, hperm.mem_iff.mpr he, hee⟩

/-! ## Effect of inserting a new instance on the instance queries -/

lemma instanceRowsFor_insert (fm : FloatModel) (st : Store)
    (inst : ExperimentInstance fm) :
    instanceRowsFor (insertNewExperimentInstance fm st inst)
        inst.experimentVersion =
      instanceRowsFor st inst.experimentVersion ++
        [⟨inst.id, inst.experimentVersion.name,
          inst.experimentVersion.id⟩] := by
  unfold instanceRowsFor insertNewExperimentInstance
  simp

lemma inValuesOf_insert_ne (fm : FloatModel) (st : Store)
    (inst : ExperimentInstance fm) (iid : Nat) (hne : iid ≠ inst.id) :
    inValuesOf (insertNewExperimentInstance fm st inst) iid =
      inValuesOf st iid := by
  have hv : (insertNewExperimentInstance fm st inst).inValues =
      st.inValues ++ inst.inputVariableValues.map
        (fun vv => ⟨inst.id, vv.var.name, vv.value.display fm⟩) := rfl
  unfold inValuesOf
  rw [hv, List.filter_append]
  have h2 : (inst.inputVariableValues.map
      (fun vv =>
        (⟨inst.id, vv.var.name, vv.value.display fm⟩ : InValueRow))).filter
        (fun r => r.exInstanceId = iid) = [] := by
    rw [List.filter_eq_nil_iff]
    intro r hr
    obtain ⟨vv, _, rfl⟩ := List.mem_map.mp hr
    simp only [decide_eq_true_eq]
    exact fun h => hne h.symm
  rw [h2, List.append_nil]

lemma inValuesOf_insert_self (fm : FloatModel) (st : Store)
    (inst : ExperimentInstance fm)
    (hfreshIV : ∀ r ∈ st.inValues, r.exInstanceId ≠ inst.id) :
    inValuesOf (insertNewExperimentInstance fm st inst) inst.id =
      inst.inputVariableValues.map
        (fun vv => ⟨inst.id, vv.var.name, vv.value.display fm⟩) := by
  have hv : (insertNewExperimentInstance fm st inst).inValues =
      st.inValues ++ inst.inputVariableValues.map
        (fun vv => ⟨inst.id, vv.var.name, vv.value.display fm⟩) := rfl
  unfold inValuesOf
  rw [hv, List.filter_append]
  have h1 : st.inValues.filter (fun r => r.exInstanceId = inst.id) = [] := by
    rw [List.filter_eq_nil_iff]
    intro r hr
    simp only [decide_eq_true_eq]
    exact hfreshIV r hr
  have h2 : (inst.inputVariableValues.map
      (fun vv =>
        (⟨inst.id, vv.var.name, vv.value.display fm⟩ : InValueRow))).filter
        (fun r => r.exInstanceId = inst.id) =
      inst.inputVariableValues.map
        (fun vv => ⟨inst.id, vv.var.name, vv.value.display fm⟩) := by
    apply List.filter_eq_self.mpr
    intro r hr
    obtain ⟨vv, _, rfl⟩ := List.mem_map.mp hr
    simp
  rw [h1, h2, List.nil_append]

lemma parseInValueRow_serialize (fm : FloatModel) (hrt : FloatRoundTrip fm)
    (v : ExperimentVersion) (iid : Nat) (vv : VariableValue fm)
    (hmem : vv.var ∈ v.inputVariables)
    (hinj : (v.inputVariables.map Variable.name).Nodup)
    (hacc : vv.var.accepts fm vv.value = true) :
    parseInValueRow fm v ⟨iid, vv.var.name, vv.value.display fm⟩ =
      some vv := by
  unfold parseInValueRow
  rw [show (⟨iid, vv.var.name, vv.value.display fm⟩ : InValueRow).varName =
    vv.var.name from rfl]
  rw [find?_name_nodup v.inputVariables vv.var hmem hinj]
  show (DataType.parseStrAsGenericValue fm vv.var.dataType
      (GenericValue.display fm vv.value)).bind
      (fun gv => VariableValue.fromVariable fm vv.var gv) = some vv
  rw [parse_display_of_accepts fm hrt vv.var vv.value hacc]
  simp [VariableValue.fromVariable, hacc]


/-- After the instance resolver has inserted a new instance for an
assignment it could not find, a repeated lookup with any permutation of
that assignment finds exactly the inserted instance. -/
lemma fetchSpecific_after_insert (fm : FloatModel) (hrt : FloatRoundTrip fm)
    (st : Store) (v : ExperimentVersion) (nid : Nat)
    (vals₁ vals₂ : List (VariableValue fm))
    (list₁ : List (ExperimentInstance fm))
    (hfetch1 : fetchAllInstancesOfVersion fm st v = some list₁)
    (hnotfound : list₁.find? (instanceMatches fm vals₁) = none)
    (hperm : vals₂.Perm vals₁)
    (hne : vals₁ ≠ [])
    (hinj : (v.inputVariables.map Variable.name).Nodup)
    (hmemv : ∀ vv ∈ vals₁, vv.var ∈ v.inputVariables)
    (hacc : ∀ vv ∈ vals₁, vv.var.accepts fm vv.value = true)
    (hfreshI : ∀ i ∈ st.experimentInstances, i.id ≠ nid)
    (hfreshIV : ∀ r ∈ st.inValues, r.exInstanceId ≠ nid) :
    fetchSpecificInstance fm
      (insertNewExperimentInstance fm st ⟨v, vals₁, nid⟩) v vals₂ =
      some (some ⟨v, vals₁, nid⟩) := by
  have hrows : instanceRowsFor
      (insertNewExperimentInstance fm st ⟨v, vals₁, nid⟩) v =
      instanceRowsFor st v ++ [⟨nid, v.name, v.id⟩] :=
    instanceRowsFor_insert fm st ⟨v, vals₁, nid⟩
  have hne_raw : ∀ x ∈ (instanceRowsFor st v).map (·.id), x ≠ nid := by
    intro x hx
    obtain ⟨row, hrow, rfl⟩ := List.mem_map.mp hx
    exact hfreshI row (List.mem_of_mem_filter hrow)
  have hparse_new :
      (optionMap (parseInValueRow fm v)
        (inValuesOf (insertNewExperimentInstance fm st ⟨v, vals₁, nid⟩)
          nid)).map
        (fun vals => (⟨v, vals, nid⟩ : ExperimentInstance fm)) =
      some ⟨v, vals₁, nid⟩ := by
    rw [inValuesOf_insert_self fm st ⟨v, vals₁, nid⟩ hfreshIV]
    rw [optionMap_map_roundtrip _ _ vals₁
      (fun vv hvv => parseInValueRow_serialize fm hrt v nid vv
        (hmemv vv hvv) hinj (hacc vv hvv))]
    rfl
  have hvalsne :
      ¬ (inValuesOf (insertNewExperimentInstance fm st ⟨v, vals₁, nid⟩)
        nid).isEmpty = true := by
    rw [inValuesOf_insert_self fm st ⟨v, vals₁, nid⟩ hfreshIV]
    simp [List.isEmpty_iff, hne]
  have hinv_ne : ∀ x : Nat, x ≠ nid →
      inValuesOf (insertNewExperimentInstance fm st ⟨v, vals₁, nid⟩) x =
        inValuesOf st x :=
    fun x hx => inValuesOf_insert_ne fm st ⟨v, vals₁, nid⟩ x hx
  have hmem₂ : ∀ x : Nat,
      (x ∈ ((sortNat ((instanceRowsFor
        (insertNewExperimentInstance fm st ⟨v, vals₁, nid⟩) v).map
          (·.id))).dedup).filter
        (fun iid => ¬ (inValuesOf
          (insertNewExperimentInstance fm st ⟨v, vals₁, nid⟩)
            iid).isEmpty)) ↔
      x = nid ∨ x ∈ ((sortNat ((instanceRowsFor st v).map
        (·.id))).dedup).filter
          (fun iid => ¬ (inValuesOf st iid).isEmpty) := by
    intro x
    rw [List.mem_filter, List.mem_filter, List.mem_dedup, List.mem_dedup,
      sortNat_mem, sortNat_mem, hrows, List.map_append]
    by_cases hx : x = nid
    · subst hx
      simp only [List.mem_append]
      constructor
      · intro _
        simp
      · intro _
        exact ⟨Or.inr (by simp), by simpa using hvalsne⟩
    · rw [hinv_ne x hx]
      simp only [List.mem_append]
      constructor
      · rintro ⟨hmem | hmem, hcond⟩
        · exact Or.inr ⟨hmem, hcond⟩
        · simp at hmem
          exact absurd hmem hx
      · rintro (rfl | ⟨hmem, hcond⟩)
        · exact absurd rfl hx
        · exact ⟨Or.inl hmem, hcond⟩
  have hunfold1 : fetchAllInstancesOfVersion fm st v =
      optionMap (fun iid =>
        (optionMap (parseInValueRow fm v) (inValuesOf st iid)).map
          (fun vals => (⟨v, vals, iid⟩ : ExperimentInstance fm)))
        (((sortNat ((instanceRowsFor st v).map (·.id))).dedup).filter
          (fun iid => ¬ (inValuesOf st iid).isEmpty)) := rfl
  have hfetch1' := hfetch1
  rw [hunfold1] at hfetch1'
  have hisSome1 := optionMap_forall_isSome _ _ list₁ hfetch1'
  have hne_ids : ∀ x ∈ ((sortNat ((instanceRowsFor st v).map
      (·.id))).dedup).filter (fun iid => ¬ (inValuesOf st iid).isEmpty),
      x ≠ nid := by
    intro x hx
    have := (List.mem_filter.mp hx).1
    rw [List.mem_dedup, sortNat_mem] at this
    exact hne_raw x this
  obtain ⟨list₂, hlist₂⟩ := optionMap_isSome_of_forall
    (fun iid =>
      (optionMap (parseInValueRow fm v)
        (inValuesOf (insertNewExperimentInstance fm st ⟨v, vals₁, nid⟩)
          iid)).map
        (fun vals => (⟨v, vals, iid⟩ : ExperimentInstance fm)))
    (((sortNat ((instanceRowsFor
      (insertNewExperimentInstance fm st ⟨v, vals₁, nid⟩) v).map
        (·.id))).dedup).filter
      (fun iid => ¬ (inValuesOf
        (insertNewExperimentInstance fm st ⟨v, vals₁, nid⟩)
          iid).isEmpty))
    (by
      intro x hx
      simp only []
      rcases (hmem₂ x).mp hx with rfl | hx₁
      · rw [hparse_new]
        rfl
      · rw [hinv_ne x (hne_ids x hx₁)]
        exact hisSome1 x hx₁)
  have hmem_inst₁ : (⟨v, vals₁, nid⟩ : ExperimentInstance fm) ∈ list₂ :=
    optionMap_mem_target _ _ list₂ hlist₂ nid
      ((hmem₂ nid).mpr (Or.inl rfl)) _ hparse_new
  have hchar : ∀ y ∈ list₂,
      y = (⟨v, vals₁, nid⟩ : ExperimentInstance fm) ∨ y ∈ list₁ := by
    intro y hy
    obtain ⟨x, hx, hpx⟩ := optionMap_mem_source _ _ list₂ hlist₂ y hy
    rcases (hmem₂ x).mp hx with rfl | hx₁
    · left
      rw [hparse_new] at hpx
      cases hpx
      rfl
    · right
      rw [hinv_ne x (hne_ids x hx₁)] at hpx
      exact optionMap_mem_target _ _ list₁ hfetch1' x hx₁ y hpx
  have hpass : instanceMatches fm vals₂ (⟨v, vals₁, nid⟩ :
      ExperimentInstance fm) = true := by
    unfold instanceMatches
    simp only [Bool.and_eq_true, decide_eq_true_eq, List.all_eq_true,
      List.any_eq_true]
    refine ⟨hperm.length_eq.symm, ?_⟩
    intro a ha
    exact ⟨a, hperm.mem_iff.mpr ha, rfl⟩
  have hfail : ∀ y ∈ list₁, ¬ instanceMatches fm vals₂ y = true := by
    intro y hy
    rw [instanceMatches_perm fm vals₁ vals₂ hperm y]
    exact List.find?_eq_none.mp hnotfound y hy
  have hfind : list₂.find? (instanceMatches fm vals₂) =
      some ⟨v, vals₁, nid⟩ := by
    have hsome : (list₂.find? (instanceMatches fm vals₂)).isSome :=
      List.find?_isSome.mpr ⟨_, hmem_inst₁, hpass⟩
    obtain ⟨y₀, hy₀⟩ := Option.isSome_iff_exists.mp hsome
    have hy₀p := List.find?_some hy₀
    have hy₀mem := List.mem_of_find?_eq_some hy₀
    rcases hchar y₀ hy₀mem with rfl | hy₀old
    · exact hy₀
    · exact absurd hy₀p (hfail y₀ hy₀old)
  have hfetch2 : fetchAllInstancesOfVersion fm
      (insertNewExperimentInstance fm st ⟨v, vals₁, nid⟩) v =
      some list₂ := hlist₂
  unfold fetchSpecificInstance
  rw [hfetch2]
  rw [show (some list₂).map
    (fun all => all.find? (instanceMatches fm vals₂)) =
      some (list₂.find? (instanceMatches fm vals₂)) from rfl, hfind]


/-! ## C3: instance deduplication -/

/-- **C3** (amended): resolving an instance twice with the same version and
the same (variable, value) assignments — in any iteration order of the
map — returns the same instance id both times, and the second resolution
inserts nothing, *provided* the assignment is nonempty (a version with no
input variables produces an instance with no `in_values` rows, which the
dedup query can never see).  The remaining hypotheses are the caller
contract (values cover the version's distinct-named input variables and
are well-typed) and freshness of the generated id. -/
theorem instance_resolution_dedup (fm : FloatModel) (sys : Sys)
    (v : ExperimentVersion) (vals₁ vals₂ : List (VariableValue fm))
    (i₁ : ExperimentInstance fm) (sys₁ : Sys)
    (hrt : FloatRoundTrip fm)
    (h1 : fromExperimentVersion fm sys v vals₁ = .ok (i₁, sys₁))
    (hperm : vals₂.Perm vals₁)
    (hne : vals₁ ≠ [])
    (hinj : (v.inputVariables.map Variable.name).Nodup)
    (hmemv : ∀ vv ∈ vals₁, vv.var ∈ v.inputVariables)
    (hacc : ∀ vv ∈ vals₁, vv.var.accepts fm vv.value = true)
    (hfreshI : ∀ i ∈ sys.store.experimentInstances, i.id ≠ sys.nextId)
    (hfreshIV : ∀ r ∈ sys.store.inValues, r.exInstanceId ≠ sys.nextId) :
    ∃ i₂, fromExperimentVersion fm sys₁ v vals₂ = .ok (i₂, sys₁) ∧
      i₂.id = i₁.id := by
  by_cases hn : eqSet (vals₁.map (fun vv => vv.var.name))
      (v.inputVariables.map (fun w => w.name)) = true
  case neg =>
    unfold fromExperimentVersion at h1
    rw [if_pos hn] at h1
    simp at h1
  case pos =>
    have hn₂ : eqSet (vals₂.map (fun vv => vv.var.name))
        (v.inputVariables.map (fun w => w.name)) = true := by
      rw [eqSet_iff] at hn ⊢
      intro x
      rw [← hn x]
      exact (hperm.map (fun vv => vv.var.name)).mem_iff
    unfold fromExperimentVersion at h1
    rw [if_neg (not_not_intro hn)] at h1
    cases hfs : fetchSpecificInstance fm sys.store v vals₁ with
    | none =>
      rw [hfs] at h1
      simp at h1
    | some found =>
      rw [hfs] at h1
      cases found with
      | some ex =>
        simp only [Except.ok.injEq, Prod.mk.injEq] at h1
        obtain ⟨hex, hsys⟩ := h1
        subst hsys
        refine ⟨ex, ?_, by rw [hex]⟩
        unfold fromExperimentVersion
        rw [if_neg (not_not_intro hn₂)]
        have hsame : fetchSpecificInstance fm sys.store v vals₂ =
            some (some ex) := by
          unfold fetchSpecificInstance at hfs ⊢
          cases hfa : fetchAllInstancesOfVersion fm sys.store v with
          | none =>
            rw [hfa] at hfs
            cases hfs
          | some all =>
            rw [hfa] at hfs
            simp only [Option.map_some', Option.some.injEq] at hfs ⊢
            rw [find?_congr _ _ all
              (fun y _ => instanceMatches_perm fm vals₁ vals₂ hperm y)]
            exact hfs
        rw [hsame]
      | none =>
        simp only [Except.ok.injEq, Prod.mk.injEq] at h1
        obtain ⟨hi, hsys⟩ := h1
        unfold fetchSpecificInstance at hfs
        cases hfa : fetchAllInstancesOfVersion fm sys.store v with
        | none =>
          rw [hfa] at hfs
          cases hfs
        | some list₁ =>
          rw [hfa] at hfs
          simp only [Option.map_some', Option.some.injEq] at hfs
          have hkey := fetchSpecific_after_insert fm hrt sys.store v
            sys.nextId vals₁ vals₂ list₁ hfa hfs hperm hne hinj hmemv hacc
            hfreshI hfreshIV
          refine ⟨⟨v, vals₁, sys.nextId⟩, ?_, by rw [← hi]⟩
          unfold fromExperimentVersion
          rw [if_neg (not_not_intro hn₂)]
          rw [show sys₁.store =
            insertNewExperimentInstance fm sys.store ⟨v, vals₁, sys.nextId⟩
            from by rw [← hsys]]
          rw [hkey]


/-- **C3** (counterexample to the claim as stated): a version with *no*
input variables.  Its instances have no `in_values` rows, so the
deduplication query (an inner join of `in_values` with
`experiment_instances`) can never see them: resolving the empty assignment
twice creates two instance rows with different ids (1, then 2). -/
theorem instance_resolution_dedup_counterexample :
    fromExperimentVersion stringFM ⟨Store.empty, 1, 5⟩
        ⟨0, "E", "t", 0, "", [], [], []⟩ [] =
      .ok (⟨⟨0, "E", "t", 0, "", [], [], []⟩, [], 1⟩,
        ⟨{ Store.empty with experimentInstances := [⟨1, "E", 0⟩] }, 2, 5⟩) ∧
    fromExperimentVersion stringFM
        ⟨{ Store.empty with experimentInstances := [⟨1, "E", 0⟩] }, 2, 5⟩
        ⟨0, "E", "t", 0, "", [], [], []⟩ [] =
      .ok (⟨⟨0, "E", "t", 0, "", [], [], []⟩, [], 2⟩,
        ⟨{ Store.empty with
            experimentInstances := [⟨1, "E", 0⟩, ⟨2, "E", 0⟩] }, 3, 5⟩) := by
  constructor <;> rfl

/-- A one-input-variable version used to instantiate the deduplication
theorem on concrete data. -/
def dedupVersion : ExperimentVersion :=
  ⟨0, "E", "t", 0, "", [], [⟨"X", "", .label⟩], []⟩

/-- The concrete assignment `X = "a"`. -/
def dedupVal : VariableValue stringFM := ⟨⟨"X", "", .label⟩, .str "a"⟩

/-- The system state after the first resolution of `X = "a"`. -/
def dedupSys1 : Sys :=
  ⟨{ Store.empty with
      experimentInstances := [⟨1, "E", 0⟩]
      inValues := [⟨1, "X", "a"⟩] }, 2, 5⟩

/-- Witness for C3 (amended): resolving `X = "a"` twice from an empty
store returns the same id both times and the second call writes nothing. -/
theorem instance_resolution_dedup_witness :
    fromExperimentVersion stringFM ⟨Store.empty, 1, 5⟩ dedupVersion
        [dedupVal] =
      .ok (⟨dedupVersion, [dedupVal], 1⟩, dedupSys1) ∧
    ∃ i₂, fromExperimentVersion stringFM dedupSys1 dedupVersion
        [dedupVal] = .ok (i₂, dedupSys1) ∧
      i₂.id = (@ExperimentInstance.mk stringFM dedupVersion
        [dedupVal] 1).id := by
  refine ⟨rfl, ?_⟩
  exact instance_resolution_dedup stringFM ⟨Store.empty, 1, 5⟩ dedupVersion
    [dedupVal] [dedupVal] ⟨dedupVersion, [dedupVal], 1⟩ dedupSys1
    (fun _ => rfl) rfl (List.Perm.refl _) (by simp) (by decide)
    (by decide) (by decide) (by decide) (by decide)


/-! ## C6: cascade completeness

The effect of running the version-scoped cascade for a whole list of
version ids is captured by a single-pass "bulk" form, proved equal to the
sequential fold below. -/

/-- Is instance `iid` (transitively) deleted when the versions `vids` are
cascaded away: some instance row with that id belongs to one of the
versions. -/
def instDeleted (st : Store) (vids : List Nat) (iid : Nat) : Bool :=
  st.experimentInstances.any (fun i => i.id = iid ∧ i.versionId ∈ vids)

/-- Is run `rid` (transitively) deleted when the versions `vids` are
cascaded away. -/
def runDeleted (st : Store) (vids : List Nat) (rid : Nat) : Bool :=
  st.runs.any (fun r => r.id = rid ∧ instDeleted st vids r.exInstanceId = true)

/-- The single-pass effect of cascading away all versions in `vids`. -/
def deleteVersionsBulk (st : Store) (vids : List Nat) : Store where
  experiments := st.experiments
  experimentVersions := st.experimentVersions.filter (fun r => ¬ r.id ∈ vids)
  variablesTable := st.variablesTable
  experimentVariables :=
    st.experimentVariables.filter (fun l => ¬ l.exVersionId ∈ vids)
  experimentInstances :=
    st.experimentInstances.filter (fun i => ¬ i.versionId ∈ vids)
  inValues :=
    st.inValues.filter (fun w => ¬ instDeleted st vids w.exInstanceId = true)
  runs := st.runs.filter (fun r => ¬ instDeleted st vids r.exInstanceId = true)
  measurements :=
    st.measurements.filter (fun m => ¬ runDeleted st vids m.runId = true)

lemma instDeleted_nil (st : Store) (iid : Nat) :
    instDeleted st [] iid = false := by
  simp [instDeleted]

lemma runDeleted_nil (st : Store) (rid : Nat) :
    runDeleted st [] rid = false := by
  simp [runDeleted, instDeleted_nil]

lemma deleteVersionsBulk_nil (st : Store) : deleteVersionsBulk st [] = st := by
  unfold deleteVersionsBulk
  cases st
  simp [List.filter_eq_self, instDeleted_nil, runDeleted_nil]

lemma instDeleted_append (st : Store) (vids : List Nat) (vid : Nat)
    (iid : Nat) :
    instDeleted st (vids ++ [vid]) iid = true ↔
      (instDeleted st vids iid = true ∨
        ∃ i ∈ st.experimentInstances, i.id = iid ∧ i.versionId = vid) := by
  simp only [instDeleted, List.any_eq_true, decide_eq_true_eq,
    List.mem_append, List.mem_singleton]
  constructor
  · rintro ⟨i, hi, hid, hin | hveq⟩
    · exact Or.inl ⟨i, hi, hid, hin⟩
    · exact Or.inr ⟨i, hi, hid, hveq⟩
  · rintro (⟨i, hi, hid, hin⟩ | ⟨i, hi, hid, hveq⟩)
    · exact ⟨i, hi, hid, Or.inl hin⟩
    · exact ⟨i, hi, hid, Or.inr hveq⟩

lemma instDeleted_mono (st : Store) (vids : List Nat) (vid : Nat)
    (iid : Nat) (h : instDeleted st vids iid = true) :
    instDeleted st (vids ++ [vid]) iid = true := by
  simp only [instDeleted, List.any_eq_true, decide_eq_true_eq,
    List.mem_append, List.mem_singleton] at h ⊢
  obtain ⟨i, hi, hid, hin⟩ := h
  exact ⟨i, hi, hid, Or.inl hin⟩

lemma runDeleted_append (st : Store) (vids : List Nat) (vid : Nat)
    (rid : Nat) :
    runDeleted st (vids ++ [vid]) rid = true ↔
      (runDeleted st vids rid = true ∨
        ∃ r ∈ st.runs, ¬ instDeleted st vids r.exInstanceId = true ∧
          r.id = rid ∧
          ∃ i ∈ st.experimentInstances,
            i.id = r.exInstanceId ∧ i.versionId = vid) := by
  constructor
  · intro h
    by_cases hold : runDeleted st vids rid = true
    · exact Or.inl hold
    · refine Or.inr ?_
      simp only [runDeleted, List.any_eq_true, decide_eq_true_eq] at h
      obtain ⟨r, hr, hid, hinst⟩ := h
      rcases (instDeleted_append st vids vid r.exInstanceId).mp hinst
        with hvids | hnew
      · exact absurd (by
          simp only [runDeleted, List.any_eq_true, decide_eq_true_eq]
          exact ⟨r, hr, hid, hvids⟩) hold
      · have hrkeep : ¬ instDeleted st vids r.exInstanceId = true := by
          intro hdel
          exact hold (by
            simp only [runDeleted, List.any_eq_true, decide_eq_true_eq]
            exact ⟨r, hr, hid, hdel⟩)
        exact ⟨r, hr, hrkeep, hid, hnew⟩
  · rintro (hold | hnew)
    · simp only [runDeleted, List.any_eq_true, decide_eq_true_eq] at hold ⊢
      obtain ⟨r, hr, hid, hdel⟩ := hold
      exact ⟨r, hr, hid, instDeleted_mono st vids vid _ hdel⟩
    · obtain ⟨r, hr, _, hid, hnew'⟩ := hnew
      simp only [runDeleted, List.any_eq_true, decide_eq_true_eq]
      refine ⟨r, hr, hid, ?_⟩
      rw [instDeleted_append st vids vid]
      exact Or.inr hnew'


lemma any_filtered_insts (st : Store) (vids : List Nat) (vid : Nat)
    (hnotin : vid ∉ vids) (iid : Nat) :
    (((st.experimentInstances.filter
        (fun i => ¬ i.versionId ∈ vids)).any
      (fun i => i.id = iid ∧ i.versionId = vid)) = true) ↔
    ∃ i ∈ st.experimentInstances, i.id = iid ∧ i.versionId = vid := by
  simp only [List.any_eq_true, List.mem_filter, decide_eq_true_eq]
  constructor
  · rintro ⟨i, ⟨hi, _⟩, h⟩
    exact ⟨i, hi, h⟩
  · rintro ⟨i, hi, hid, hveq⟩
    refine ⟨i, ⟨hi, ?_⟩, hid, hveq⟩
    rw [hveq]
    exact hnotin

lemma any_filtered_runs (st : Store) (vids : List Nat) (vid : Nat)
    (hnotin : vid ∉ vids) (rid : Nat) :
    (((st.runs.filter
        (fun r => ¬ instDeleted st vids r.exInstanceId = true)).any
      (fun r => r.id = rid ∧
        ((st.experimentInstances.filter
          (fun i => ¬ i.versionId ∈ vids)).any
            (fun i => i.id = r.exInstanceId ∧ i.versionId = vid)) = true))
      = true) ↔
    ∃ r ∈ st.runs, ¬ instDeleted st vids r.exInstanceId = true ∧
      r.id = rid ∧ ∃ i ∈ st.experimentInstances,
        i.id = r.exInstanceId ∧ i.versionId = vid := by
  simp only [List.any_eq_true, List.mem_filter, decide_eq_true_eq]
  constructor
  · rintro ⟨r, ⟨hr, hkeep⟩, hid, i, ⟨hi, _⟩, hiid, hveq⟩
    exact ⟨r, hr, hkeep, hid, i, hi, hiid, hveq⟩
  · rintro ⟨r, hr, hkeep, hid, i, hi, hiid, hveq⟩
    refine ⟨r, ⟨hr, hkeep⟩, hid, i, ⟨hi, ?_⟩, hiid, hveq⟩
    rw [hveq]
    exact hnotin

lemma deleteTx_bulk_step (st : Store) (vids : List Nat) (vid : Nat)
    (hnotin : vid ∉ vids) :
    deleteExperimentVersionTx (deleteVersionsBulk st vids) vid =
      deleteVersionsBulk st (vids ++ [vid]) := by
  unfold deleteExperimentVersionTx deleteExperimentVersionSteps
  simp only [List.foldl_cons, List.foldl_nil, applyDeleteStep]
  unfold deleteVersionsBulk measurementOfVersion runOfVersion
    inValueOfVersion
  simp only [Store.mk.injEq, List.filter_filter]
  refine ⟨by trivial, ?_, by trivial, ?_, ?_, ?_, ?_, ?_⟩
  · apply List.filter_congr
    intro r _
    apply Bool.eq_iff_iff.mpr
    simp only [Bool.and_eq_true, decide_eq_true_eq, List.mem_append,
      List.mem_singleton]
    tauto
  · apply List.filter_congr
    intro l _
    apply Bool.eq_iff_iff.mpr
    simp only [Bool.and_eq_true, decide_eq_true_eq, List.mem_append,
      List.mem_singleton]
    tauto
  · apply List.filter_congr
    intro i _
    apply Bool.eq_iff_iff.mpr
    simp only [Bool.and_eq_true, decide_eq_true_eq, List.mem_append,
      List.mem_singleton]
    tauto
  · apply List.filter_congr
    intro w _
    apply Bool.eq_iff_iff.mpr
    simp only [Bool.and_eq_true, decide_eq_true_eq]
    rw [instDeleted_append st vids vid w.exInstanceId,
      any_filtered_insts st vids vid hnotin w.exInstanceId]
    constructor
    · rintro ⟨hE, hA⟩ (h | h)
      · exact hA h
      · exact hE h
    · intro h
      exact ⟨fun hE => h (Or.inr hE), fun hA => h (Or.inl hA)⟩
  · apply List.filter_congr
    intro r _
    apply Bool.eq_iff_iff.mpr
    simp only [Bool.and_eq_true, decide_eq_true_eq]
    rw [instDeleted_append st vids vid r.exInstanceId,
      any_filtered_insts st vids vid hnotin r.exInstanceId]
    constructor
    · rintro ⟨hE, hA⟩ (h | h)
      · exact hA h
      · exact hE h
    · intro h
      exact ⟨fun hE => h (Or.inr hE), fun hA => h (Or.inl hA)⟩
  · apply List.filter_congr
    intro m _
    apply Bool.eq_iff_iff.mpr
    simp only [Bool.and_eq_true, decide_eq_true_eq]
    rw [runDeleted_append st vids vid m.runId,
      any_filtered_runs st vids vid hnotin m.runId]
    constructor
    · rintro ⟨hE, hA⟩ (h | h)
      · exact hA h
      · exact hE h
    · intro h
      exact ⟨fun hE => h (Or.inr hE), fun hA => h (Or.inl hA)⟩


lemma foldl_deleteTx_bulk (vids : List Nat) :
    ∀ st : Store, vids.Nodup →
      vids.foldl deleteExperimentVersionTx st = deleteVersionsBulk st vids := by
  induction vids using List.reverseRecOn with
  | nil =>
    intro st _
    rw [List.foldl_nil, deleteVersionsBulk_nil]
  | append_singleton vids vid ih =>
    intro st hnodup
    rw [List.foldl_append, List.foldl_cons, List.foldl_nil]
    obtain ⟨h₁, _, hdisj⟩ := List.nodup_append.mp hnodup
    rw [ih st h₁]
    exact deleteTx_bulk_step st vids vid
      (fun hmem => hdisj hmem (List.mem_singleton_self vid))

lemma deleteExperiment_closed (st : Store) (name : String)
    (hmem : name ∈ st.experiments)
    (hne : st.experimentVersions.filter (fun r => r.name = name) ≠ [])
    (hnodup : ((st.experimentVersions.filter
      (fun r => r.name = name)).map (fun r => r.id)).Nodup) :
    deleteExperiment st name =
      { deleteVersionsBulk st ((st.experimentVersions.filter
          (fun r => r.name = name)).map (fun r => r.id)) with
        experiments := st.experiments.filter (fun n => ¬ n = name) } := by
  have hrows : fetchAllVersionsByName st name =
      (st.experimentVersions.filter (fun r => r.name = name)).map
        (decodeVersionRow st) := by
    unfold fetchAllVersionsByName versionRowsOf
    rw [if_pos hmem]
  have hempty : ((st.experimentVersions.filter
      (fun r => r.name = name)).map (decodeVersionRow st)).isEmpty =
      false := by
    cases hE : ((st.experimentVersions.filter
        (fun r => r.name = name)).map (decodeVersionRow st)).isEmpty
    · rfl
    · rw [List.isEmpty_iff, List.map_eq_nil_iff] at hE
      exact absurd hE hne
  have haux : ∀ (l : List VersionRow) (s : Store),
      (l.map (decodeVersionRow st)).foldl
        (fun s v => deleteExperimentVersionTx s v.id) s =
        (l.map (fun r => r.id)).foldl deleteExperimentVersionTx s := by
    intro l
    induction l with
    | nil =>
      intro s
      rfl
    | cons r l ihc =>
      intro s
      rw [List.map_cons, List.foldl_cons, List.map_cons, List.foldl_cons,
        ihc]
      rfl
  unfold deleteExperiment
  simp only [hrows, hempty, Bool.false_eq_true, if_false]
  rw [haux, foldl_deleteTx_bulk _ st hnodup]
  rfl

lemma version_row_id_inj (st : Store)
    (hnodupVer : (st.experimentVersions.map (fun r => r.id)).Nodup)
    (r r' : VersionRow) (hr : r ∈ st.experimentVersions)
    (hr' : r' ∈ st.experimentVersions) (h : r.id = r'.id) : r = r' :=
  List.inj_on_of_nodup_map hnodupVer hr hr' h

/-- The version ids of all versions of experiment `name`: the set of ids
the cascade of `delete_experiment` runs over. -/
def versionIdsOf (st : Store) (name : String) : List Nat :=
  (st.experimentVersions.filter (fun r => r.name = name)).map (fun r => r.id)

/-- The foreign-key/primary-key consistency invariant the schema of
`init_schema` maintains: version ids are unique (PRIMARY KEY), every
version names an existing experiment, every instance and every variable
link resolves to a version of the matching experiment name, every
input value and every run resolves to an instance, and every measurement
resolves to a run. -/
@[reducible] def storeConsistent (st : Store) : Prop :=
  (st.experimentVersions.map (fun r => r.id)).Nodup ∧
  (∀ r ∈ st.experimentVersions, r.name ∈ st.experiments) ∧
  (∀ i ∈ st.experimentInstances,
    ∃ r ∈ st.experimentVersions, r.id = i.versionId ∧ r.name = i.name) ∧
  (∀ l ∈ st.experimentVariables,
    ∃ r ∈ st.experimentVersions, r.id = l.exVersionId ∧ r.name = l.exName) ∧
  (∀ w ∈ st.inValues, ∃ i ∈ st.experimentInstances, i.id = w.exInstanceId) ∧
  (∀ r ∈ st.runs, ∃ i ∈ st.experimentInstances, i.id = r.exInstanceId) ∧
  (∀ m ∈ st.measurements, ∃ r ∈ st.runs, r.id = m.runId)

/-- Instance `iid` belongs to experiment `name` (in the given store):
some instance row with that id refers to a version of `name`. -/
def instanceOfName (st : Store) (name : String) (iid : Nat) : Prop :=
  ∃ i ∈ st.experimentInstances, i.id = iid ∧
    ∃ v ∈ st.experimentVersions, v.id = i.versionId ∧ v.name = name

/-- Run `rid` belongs to experiment `name` (in the given store): some run
row with that id refers to an instance of `name`. -/
def runOfName (st : Store) (name : String) (rid : Nat) : Prop :=
  ∃ r ∈ st.runs, r.id = rid ∧ instanceOfName st name r.exInstanceId

/-- A concrete store exercising the whole foreign-key chain (experiment,
version, variable, link, instance, input value, run, measurement). -/
def cascadeWitnessStore : Store where
  experiments := ["E"]
  experimentVersions := [⟨0, "E", "v1", 0, "", ""⟩]
  variablesTable := [⟨"X", "", DataType.label⟩]
  experimentVariables := [⟨"X", "E", 0, VariableType.input⟩]
  experimentInstances := [⟨1, "E", 0⟩]
  inValues := [⟨1, "X", "a"⟩]
  runs := [⟨2, 1, 7⟩]
  measurements := [⟨2, "X", "a"⟩]

/-- C6, counterexample to the claim as stated: when an experiment exists
but has no versions, `delete_experiment` returns early without any write,
so the `experiments` row of that very name survives the deletion. -/
theorem cascade_completeness_counterexample :
    "E" ∈ (deleteExperiment
      { Store.empty with experiments := ["E"] } "E").experiments ∧
    deleteExperiment { Store.empty with experiments := ["E"] } "E" =
      { Store.empty with experiments := ["E"] } :=
  ⟨by decide, by decide⟩

/-- C6 (amended): for an experiment that exists and has at least one
version, in a store satisfying the schema's foreign-key/primary-key
invariant, `delete_experiment(name)` removes the experiment row, every
version, instance and variable link of `name`, every input value, run and
measurement that belonged to `name`, and the resulting store again
satisfies the invariant — no dangling references remain.  The
at-least-one-version hypothesis is necessary (see the counterexample). -/
theorem cascade_completeness (st : Store) (name : String)
    (hmem : name ∈ st.experiments)
    (hne : st.experimentVersions.filter (fun r => r.name = name) ≠ [])
    (hwf : storeConsistent st) :
    name ∉ (deleteExperiment st name).experiments ∧
    (∀ r ∈ (deleteExperiment st name).experimentVersions, r.name ≠ name) ∧
    (∀ i ∈ (deleteExperiment st name).experimentInstances, i.name ≠ name) ∧
    (∀ l ∈ (deleteExperiment st name).experimentVariables,
      l.exName ≠ name) ∧
    (∀ w ∈ (deleteExperiment st name).inValues,
      ¬ instanceOfName st name w.exInstanceId) ∧
    (∀ r ∈ (deleteExperiment st name).runs,
      ¬ instanceOfName st name r.exInstanceId) ∧
    (∀ m ∈ (deleteExperiment st name).measurements,
      ¬ runOfName st name m.runId) ∧
    storeConsistent (deleteExperiment st name) := by
  obtain ⟨hnodupVer, hVerName, hInst, hLink, hInVal, hRun, hMeas⟩ := hwf
  have hvnodup : (versionIdsOf st name).Nodup :=
    List.Nodup.sublist
      (List.Sublist.map _ (List.filter_sublist _)) hnodupVer
  have hclosed := deleteExperiment_closed st name hmem hne hvnodup
  have hvids : ∀ n : Nat, n ∈ versionIdsOf st name ↔
      ∃ v ∈ st.experimentVersions, v.id = n ∧ v.name = name := by
    intro n
    simp only [versionIdsOf, List.mem_map, List.mem_filter,
      decide_eq_true_eq]
    constructor
    · rintro ⟨r, ⟨hrv, hrname⟩, hid⟩
      exact ⟨r, hrv, hid, hrname⟩
    · rintro ⟨v, hv, hid, hname⟩
      exact ⟨v, ⟨hv, hname⟩, hid⟩
  have hinstDel : ∀ iid : Nat,
      instDeleted st (versionIdsOf st name) iid = true ↔
        instanceOfName st name iid := by
    intro iid
    simp only [instDeleted, instanceOfName, List.any_eq_true,
      decide_eq_true_eq]
    constructor
    · rintro ⟨i, hi, hid, hvmem⟩
      obtain ⟨v, hv, hvid, hvname⟩ := (hvids i.versionId).mp hvmem
      exact ⟨i, hi, hid, v, hv, hvid, hvname⟩
    · rintro ⟨i, hi, hid, v, hv, hvid, hvname⟩
      exact ⟨i, hi, hid, (hvids i.versionId).mpr ⟨v, hv, hvid, hvname⟩⟩
  have hrunDel : ∀ rid : Nat,
      runDeleted st (versionIdsOf st name) rid = true ↔
        runOfName st name rid := by
    intro rid
    simp only [runDeleted, runOfName, List.any_eq_true, decide_eq_true_eq]
    constructor
    · rintro ⟨r, hr, hid, hdel⟩
      exact ⟨r, hr, hid, (hinstDel r.exInstanceId).mp hdel⟩
    · rintro ⟨r, hr, hid, hof⟩
      exact ⟨r, hr, hid, (hinstDel r.exInstanceId).mpr hof⟩
  have hE : (deleteExperiment st name).experiments =
      st.experiments.filter (fun n => ¬ n = name) := by
    rw [hclosed]
  have hV : (deleteExperiment st name).experimentVersions =
      st.experimentVersions.filter
        (fun r => ¬ r.id ∈ versionIdsOf st name) := by
    rw [hclosed]
    rfl
  have hL : (deleteExperiment st name).experimentVariables =
      st.experimentVariables.filter
        (fun l => ¬ l.exVersionId ∈ versionIdsOf st name) := by
    rw [hclosed]
    rfl
  have hI : (deleteExperiment st name).experimentInstances =
      st.experimentInstances.filter
        (fun i => ¬ i.versionId ∈ versionIdsOf st name) := by
    rw [hclosed]
    rfl
  have hW : (deleteExperiment st name).inValues =
      st.inValues.filter (fun w =>
        ¬ instDeleted st (versionIdsOf st name) w.exInstanceId = true) := by
    rw [hclosed]
    rfl
  have hR : (deleteExperiment st name).runs =
      st.runs.filter (fun r =>
        ¬ instDeleted st (versionIdsOf st name) r.exInstanceId = true) := by
    rw [hclosed]
    rfl
  have hM : (deleteExperiment st name).measurements =
      st.measurements.filter (fun m =>
        ¬ runDeleted st (versionIdsOf st name) m.runId = true) := by
    rw [hclosed]
    rfl
  refine ⟨?_, ?_, ?_, ?_, ?_, ?_, ?_, ?_, ?_, ?_, ?_, ?_, ?_, ?_⟩
  · intro hc
    rw [hE] at hc
    have hc2 := List.mem_filter.mp hc
    exact absurd rfl (of_decide_eq_true hc2.2)
  · intro r hr heq
    rw [hV] at hr
    simp only [List.mem_filter, decide_eq_true_eq] at hr
    exact hr.2 ((hvids r.id).mpr ⟨r, hr.1, rfl, heq⟩)
  · intro i hi heq
    rw [hI] at hi
    simp only [List.mem_filter, decide_eq_true_eq] at hi
    obtain ⟨v, hv, hvid, hvname⟩ := hInst i hi.1
    exact hi.2 ((hvids i.versionId).mpr ⟨v, hv, hvid, hvname.trans heq⟩)
  · intro l hl heq
    rw [hL] at hl
    simp only [List.mem_filter, decide_eq_true_eq] at hl
    obtain ⟨v, hv, hvid, hvname⟩ := hLink l hl.1
    exact hl.2 ((hvids l.exVersionId).mpr ⟨v, hv, hvid, hvname.trans heq⟩)
  · intro w hw hof
    rw [hW] at hw
    simp only [List.mem_filter, decide_eq_true_eq] at hw
    exact hw.2 ((hinstDel w.exInstanceId).mpr hof)
  · intro r hr hof
    rw [hR] at hr
    simp only [List.mem_filter, decide_eq_true_eq] at hr
    exact hr.2 ((hinstDel r.exInstanceId).mpr hof)
  · intro m hm hof
    rw [hM] at hm
    simp only [List.mem_filter, decide_eq_true_eq] at hm
    exact hm.2 ((hrunDel m.runId).mpr hof)
  · rw [hV]
    exact List.Nodup.sublist
      (List.Sublist.map _ (List.filter_sublist _)) hnodupVer
  · intro r hr
    rw [hV] at hr
    rw [hE]
    simp only [List.mem_filter, decide_eq_true_eq] at hr ⊢
    refine ⟨hVerName r hr.1, ?_⟩
    intro heq
    exact hr.2 ((hvids r.id).mpr ⟨r, hr.1, rfl, heq⟩)
  · intro i hi
    rw [hI] at hi
    simp only [List.mem_filter, decide_eq_true_eq] at hi
    obtain ⟨v, hv, hvid, hvname⟩ := hInst i hi.1
    refine ⟨v, ?_, hvid, hvname⟩
    rw [hV]
    simp only [List.mem_filter, decide_eq_true_eq]
    exact ⟨hv, fun hvin => hi.2 (hvid ▸ hvin)⟩
  · intro l hl
    rw [hL] at hl
    simp only [List.mem_filter, decide_eq_true_eq] at hl
    obtain ⟨v, hv, hvid, hvname⟩ := hLink l hl.1
    refine ⟨v, ?_, hvid, hvname⟩
    rw [hV]
    simp only [List.mem_filter, decide_eq_true_eq]
    exact ⟨hv, fun hvin => hl.2 (hvid ▸ hvin)⟩
  · intro w hw
    rw [hW] at hw
    simp only [List.mem_filter, decide_eq_true_eq] at hw
    obtain ⟨i, hi, hid⟩ := hInVal w hw.1
    refine ⟨i, ?_, hid⟩
    rw [hI]
    simp only [List.mem_filter, decide_eq_true_eq]
    refine ⟨hi, ?_⟩
    intro hvin
    apply hw.2
    simp only [instDeleted, List.any_eq_true, decide_eq_true_eq]
    exact ⟨i, hi, hid, hvin⟩
  · intro r hr
    rw [hR] at hr
    simp only [List.mem_filter, decide_eq_true_eq] at hr
    obtain ⟨i, hi, hid⟩ := hRun r hr.1
    refine ⟨i, ?_, hid⟩
    rw [hI]
    simp only [List.mem_filter, decide_eq_true_eq]
    refine ⟨hi, ?_⟩
    intro hvin
    apply hr.2
    simp only [instDeleted, List.any_eq_true, decide_eq_true_eq]
    exact ⟨i, hi, hid, hvin⟩
  · intro m hm
    rw [hM] at hm
    simp only [List.mem_filter, decide_eq_true_eq] at hm
    obtain ⟨r, hr, hid⟩ := hMeas m hm.1
    refine ⟨r, ?_, hid⟩
    rw [hR]
    simp only [List.mem_filter, decide_eq_true_eq]
    refine ⟨hr, ?_⟩
    intro hdel
    apply hm.2
    simp only [runDeleted, List.any_eq_true, decide_eq_true_eq]
    exact ⟨r, hr, hid, hdel⟩

/-- C6, witness: the amended cascade-completeness theorem applied to a
concrete store populated across the whole foreign-key chain. -/
theorem cascade_completeness_witness :
    ("E" ∈ cascadeWitnessStore.experiments ∧
      cascadeWitnessStore.experimentVersions.filter
        (fun r => r.name = "E") ≠ [] ∧
      storeConsistent cascadeWitnessStore) ∧
    ("E" ∉ (deleteExperiment cascadeWitnessStore "E").experiments ∧
      (∀ r ∈ (deleteExperiment cascadeWitnessStore "E").experimentVersions,
        r.name ≠ "E") ∧
      (∀ i ∈ (deleteExperiment cascadeWitnessStore "E").experimentInstances,
        i.name ≠ "E") ∧
      (∀ l ∈ (deleteExperiment cascadeWitnessStore "E").experimentVariables,
        l.exName ≠ "E") ∧
      (∀ w ∈ (deleteExperiment cascadeWitnessStore "E").inValues,
        ¬ instanceOfName cascadeWitnessStore "E" w.exInstanceId) ∧
      (∀ r ∈ (deleteExperiment cascadeWitnessStore "E").runs,
        ¬ instanceOfName cascadeWitnessStore "E" r.exInstanceId) ∧
      (∀ m ∈ (deleteExperiment cascadeWitnessStore "E").measurements,
        ¬ runOfName cascadeWitnessStore "E" m.runId) ∧
      storeConsistent (deleteExperiment cascadeWitnessStore "E")) :=
  ⟨⟨by decide, by decide, by decide⟩,
    cascade_completeness cascadeWitnessStore "E" (by decide) (by decide)
      (by decide)⟩

end Exar

